import Mathlib

/-!
Verification development for the email-analysis pipeline in
`src/EmailAnalyzer.py`.

Strings are modelled as `List Char` (the decoded Python `str`).  The Python
`datetime.strptime` is modelled for exactly the five format strings the
source uses, following the CPython `_strptime` semantics: `%Y` is exactly four
digits, `%m` is the regex alternation `1[0-2]|0[1-9]|[1-9]`, `%d` is
`3[01]|[12]\d|0[1-9]|[1-9]`, a whitespace run in the format matches one or
more whitespace characters, the regex performs a prefix match with
backtracking, and afterwards the "unconverted data remains" check and the
`datetime` range validation are applied to the single match found.
Whitespace and digit classes are modelled over ASCII (the inputs of
interest are ASCII digits, punctuation and Korean syllables, none of which
are exotic digit or space code points).
-/

namespace EmailAnalyzer

/-- ASCII decimal digit test (`\d` over the inputs of interest). -/
def isDigitChar (c : Char) : Bool := 48 ≤ c.toNat && c.toNat ≤ 57

/-- Numeric value of a digit character. -/
def dval (c : Char) : Nat := c.toNat - 48

/-- Python whitespace (`\s`, `str.strip`, `int` stripping), ASCII subset. -/
def pyIsSpace (c : Char) : Bool :=
  c = ' ' || c = '\t' || c = '\n' || c = '\r' || c.toNat = 11 || c.toNat = 12

/-- Whether the character `c` occurs in the string (Python `c in s`). -/
def hasChar (c : Char) (l : List Char) : Bool := l.any (fun x => x == c)

/-- Fuel-indexed decimal rendering (the fuel strictly bounds the digit
count, so it is never exhausted when seeded with `n + 1`). -/
def natToDecAux : Nat → Nat → List Char
  | 0, _ => []
  | fuel + 1, n =>
    if n < 10 then [Char.ofNat (48 + n)]
    else natToDecAux fuel (n / 10) ++ [Char.ofNat (48 + n % 10)]

/-- Decimal rendering of a natural number, as produced by Python string interpolation of the year. -/
def natToDec (n : Nat) : List Char := natToDecAux (n + 1) n

/-- Boolean list-prefix test. -/
def isPfx : List Char → List Char → Bool
  | [], _ => true
  | _ :: _, [] => false
  | a :: as, b :: bs => a == b && isPfx as bs

/-- Try alternatives in order with a continuation (regex alternation with
backtracking into the rest of the pattern). -/
def firstSome {α β : Type} : List α → (α → Option β) → Option β
  | [], _ => none
  | a :: as, k => match k a with
    | some b => some b
    | none => firstSome as k

/-- Match one literal character. -/
def litc (x : Char) : List Char → Option (List Char)
  | [] => none
  | c :: rest => if c = x then some rest else none

/-- `%Y`: exactly four digits. -/
def take4Digits : List Char → Option (Nat × List Char)
  | a :: b :: c :: d :: rest =>
    if isDigitChar a && isDigitChar b && isDigitChar c && isDigitChar d then
      some (1000 * dval a + 100 * dval b + 10 * dval c + dval d, rest)
    else none
  | _ => none

/-- `%m` regex alternatives `1[0-2]|0[1-9]|[1-9]`, in regex order. -/
def monthAlts : List Char → List (Nat × List Char)
  | [] => []
  | [a] => if 49 ≤ a.toNat && a.toNat ≤ 57 then [(dval a, [])] else []
  | a :: b :: rest =>
    (if a = '1' && 48 ≤ b.toNat && b.toNat ≤ 50 then [(10 + dval b, rest)] else []) ++
    (if a = '0' && 49 ≤ b.toNat && b.toNat ≤ 57 then [(dval b, rest)] else []) ++
    (if 49 ≤ a.toNat && a.toNat ≤ 57 then [(dval a, b :: rest)] else [])

/-- `%d` regex alternatives `3[01]|[12]\d|0[1-9]|[1-9]`, in regex order. -/
def dayAlts : List Char → List (Nat × List Char)
  | [] => []
  | [a] => if 49 ≤ a.toNat && a.toNat ≤ 57 then [(dval a, [])] else []
  | a :: b :: rest =>
    (if a = '3' && (b = '0' || b = '1') then [(30 + dval b, rest)] else []) ++
    (if (a = '1' || a = '2') && isDigitChar b then [(10 * dval a + dval b, rest)] else []) ++
    (if a = '0' && 49 ≤ b.toNat && b.toNat ≤ 57 then [(dval b, rest)] else []) ++
    (if 49 ≤ a.toNat && a.toNat ≤ 57 then [(dval a, b :: rest)] else [])

/-- `\s+`: one or more whitespace characters (greedy; the following pattern
atoms in all used formats cannot match whitespace, so greediness is exact). -/
def wsPlus : List Char → Option (List Char)
  | [] => none
  | c :: rest => if pyIsSpace c then some (rest.dropWhile pyIsSpace) else none

/-- A concrete calendar date as produced by `datetime.strptime`. -/
structure PyDate where
  year : Nat
  month : Nat
  day : Nat
deriving DecidableEq, Repr

def isLeap (y : Nat) : Bool := (y % 4 = 0 && y % 100 ≠ 0) || y % 400 = 0

def daysInMonth (y m : Nat) : Nat :=
  if m = 2 then (if isLeap y then 29 else 28)
  else if m = 4 || m = 6 || m = 9 || m = 11 then 30
  else 31

/-- `datetime(year, month, day)` construction succeeds. -/
def validYMD (y m d : Nat) : Bool :=
  1 ≤ y && y ≤ 9999 && 1 ≤ m && m ≤ 12 && 1 ≤ d && d ≤ daysInMonth y m

/-- Regex phase of `strptime(s, %Y-%m-%d)`: first prefix match, returning
the captured fields and the unconsumed remainder. -/
def matchISO (l : List Char) : Option (Nat × Nat × Nat × List Char) :=
  match take4Digits l with
  | none => none
  | some (y, r1) =>
    match litc '-' r1 with
    | none => none
    | some r2 =>
      firstSome (monthAlts r2) fun p =>
        match litc '-' p.2 with
        | none => none
        | some r4 =>
          firstSome (dayAlts r4) fun q => some (y, p.1, q.1, q.2)

/-- `strptime(s, %Y-%m-%d)`: regex match, then leftover and validity. -/
def parseISO (l : List Char) : Option PyDate :=
  match matchISO l with
  | some (y, m, d, rest) =>
    if rest = [] && validYMD y m d then some ⟨y, m, d⟩ else none
  | none => none

/-- Regex phase of `strptime(s, %Y년 %m월 %d일)`. -/
def matchKorean (l : List Char) : Option (Nat × Nat × Nat × List Char) :=
  match take4Digits l with
  | none => none
  | some (y, r1) =>
    match litc '년' r1 with
    | none => none
    | some r2 =>
      match wsPlus r2 with
      | none => none
      | some r3 =>
        firstSome (monthAlts r3) fun p =>
          match litc '월' p.2 with
          | none => none
          | some r5 =>
            match wsPlus r5 with
            | none => none
            | some r6 =>
              firstSome (dayAlts r6) fun q =>
                match litc '일' q.2 with
                | none => none
                | some r8 => some (y, p.1, q.1, r8)

/-- `strptime(s, %Y년 %m월 %d일)`. -/
def parseKorean (l : List Char) : Option PyDate :=
  match matchKorean l with
  | some (y, m, d, rest) =>
    if rest = [] && validYMD y m d then some ⟨y, m, d⟩ else none
  | none => none

/-- Regex phase of `strptime(s, %Y/%m/%d)`. -/
def matchSlashMD (l : List Char) : Option (Nat × Nat × Nat × List Char) :=
  match take4Digits l with
  | none => none
  | some (y, r1) =>
    match litc '/' r1 with
    | none => none
    | some r2 =>
      firstSome (monthAlts r2) fun p =>
        match litc '/' p.2 with
        | none => none
        | some r4 =>
          firstSome (dayAlts r4) fun q => some (y, p.1, q.1, q.2)

/-- `strptime(s, %Y/%m/%d)`. -/
def parseSlashMD (l : List Char) : Option PyDate :=
  match matchSlashMD l with
  | some (y, m, d, rest) =>
    if rest = [] && validYMD y m d then some ⟨y, m, d⟩ else none
  | none => none

/-- Regex phase of `strptime(s, %Y/%m월 %d일)`. -/
def matchSlashKor (l : List Char) : Option (Nat × Nat × Nat × List Char) :=
  match take4Digits l with
  | none => none
  | some (y, r1) =>
    match litc '/' r1 with
    | none => none
    | some r2 =>
      firstSome (monthAlts r2) fun p =>
        match litc '월' p.2 with
        | none => none
        | some r4 =>
          match wsPlus r4 with
          | none => none
          | some r5 =>
            firstSome (dayAlts r5) fun q =>
              match litc '일' q.2 with
              | none => none
              | some r7 => some (y, p.1, q.1, r7)

/-- `strptime(s, %Y/%m월 %d일)`. -/
def parseSlashKor (l : List Char) : Option PyDate :=
  match matchSlashKor l with
  | some (y, m, d, rest) =>
    if rest = [] && validYMD y m d then some ⟨y, m, d⟩ else none
  | none => none

/-- Regex phase of `strptime(s, %Y/%d일)`; `%m` is absent so strptime
defaults the month to 1. -/
def matchSlashDay (l : List Char) : Option (Nat × Nat × List Char) :=
  match take4Digits l with
  | none => none
  | some (y, r1) =>
    match litc '/' r1 with
    | none => none
    | some r2 =>
      firstSome (dayAlts r2) fun q =>
        match litc '일' q.2 with
        | none => none
        | some r4 => some (y, q.1, r4)

/-- `strptime(s, %Y/%d일)` (month defaults to January). -/
def parseSlashDay (l : List Char) : Option PyDate :=
  match matchSlashDay l with
  | some (y, d, rest) =>
    if rest = [] && validYMD y 1 d then some ⟨y, 1, d⟩ else none
  | none => none

/-- Digit run of Python `int(str)`: digits with single underscores allowed
only between digits.  Returns the value and the unconsumed remainder. -/
def pyIntLoop (acc : Nat) : List Char → Option (Nat × List Char)
  | [] => some (acc, [])
  | c :: rest =>
    if c = '_' then
      match rest with
      | c2 :: rest2 =>
        if isDigitChar c2 then pyIntLoop (acc * 10 + dval c2) rest2 else none
      | [] => none
    else if isDigitChar c then pyIntLoop (acc * 10 + dval c) rest
    else some (acc, c :: rest)

/-- Optional leading sign: negativity flag and the remaining characters. -/
def pySign (l : List Char) : Bool × List Char :=
  match l with
  | c :: r => if c = '+' then (false, r) else if c = '-' then (true, r) else (false, l)
  | [] => (false, [])

/-- Sign application and digit-run parse of `int(str)` after the optional
sign: the head must be a digit, then the digit run, then only trailing
whitespace. -/
def pyIntDigits (neg : Bool) (l2 : List Char) : Option Int :=
  match l2 with
  | c :: rest =>
    if isDigitChar c then
      match pyIntLoop (dval c) rest with
      | some (n, tail) =>
        if tail.dropWhile pyIsSpace = [] then
          some (if neg then -(n : Int) else (n : Int))
        else none
      | none => none
    else none
  | [] => none

/-- Python `int(str)`: optional surrounding whitespace, optional sign,
non-empty digit run (with underscores between digits); `none` models
`ValueError`. -/
def pyInt (l : List Char) : Option Int :=
  pyIntDigits (pySign (l.dropWhile pyIsSpace)).1 (pySign (l.dropWhile pyIsSpace)).2

/-- The instant at which `datetime.now()` is sampled inside
`create_ics_event`: its calendar year, its proleptic-Gregorian ordinal
(`date.toordinal()`), and its strftime `%Y%m%d%H%M%S` rendering. -/
structure NowInfo where
  year : Nat
  ord : Nat
  stamp : List Char
deriving DecidableEq, Repr

/-- The resolved due instant: either a literal parsed date (midnight), or
`now + n` days. -/
inductive Due where
  | onDate (d : PyDate)
  | fromNow (n : Int)
deriving DecidableEq, Repr

/-- Whether `datetime.now() + timedelta(days=n)` is representable:
`timedelta` accepts at most ±999999999 days and the resulting date ordinal
must lie in `[1, date(9999,12,31).toordinal()]`; otherwise Python raises
`OverflowError`. -/
def inAddRange (now : NowInfo) (n : Int) : Bool :=
  -999999999 ≤ n && n ≤ 999999999 &&
    1 ≤ (now.ord : Int) + n && (now.ord : Int) + n ≤ 3652059

/-- The rendered year followed by 년 and a space. -/
def yearNyeon (now : NowInfo) : List Char := natToDec now.year ++ ['년', ' ']

/-- The rendered year followed by a slash. -/
def yearSlash (now : NowInfo) : List Char := natToDec now.year ++ ['/']

/-- The four formats tried by the loop in `create_ics_event`, in order:
`%Y-%m-%d`, `%m/%d`, `%m월 %d일`, `%d일`. -/
inductive Fmt where
  | iso | mdSlash | kor | dayK
deriving DecidableEq

/-- Result of one loop iteration: success (`break`), an uncaught
`OverflowError` (handled by the enclosing bare `except`), or `continue`
with the possibly mutated `deadline_str`. -/
inductive StepRes where
  | done (d : Due)
  | overflow
  | cont (s : List Char)

/-- One iteration of the `for fmt in [...]` loop of `create_ics_event`
(lines 116-131): for the three short formats the body dispatches on the
content of `deadline_str`; the `'월'` branch first reassigns
prepending the year and 년 to `deadline_str` (the mutation survives a failed
parse), the `'일'` branch computes
`now + timedelta(days=int(...))` on the digits left after deleting every 일, and the
remaining branch parses the slash-joined year and deadline string with the
format `%Y/` followed by the short format. -/
def tryFmt (now : NowInfo) (fmt : Fmt) (s : List Char) : StepRes :=
  match fmt with
  | .iso =>
    match parseISO s with
    | some d => .done (.onDate d)
    | none => .cont s
  | f =>
    if hasChar '월' s then
      let s' := yearNyeon now ++ s
      match parseKorean s' with
      | some d => .done (.onDate d)
      | none => .cont s'
    else if hasChar '일' s then
      match pyInt (s.filter (fun c => c ≠ '일')) with
      | some n => if inAddRange now n then .done (.fromNow n) else .overflow
      | none => .cont s
    else
      match
        (match f with
         | .mdSlash => parseSlashMD (yearSlash now ++ s)
         | .kor => parseSlashKor (yearSlash now ++ s)
         | _ => parseSlashDay (yearSlash now ++ s)) with
      | some d => .done (.onDate d)
      | none => .cont s

/-- The `for ... else` loop: first success wins, loop exhaustion or an
`OverflowError` both end at `now + timedelta(days=7)`. -/
def runFmts (now : NowInfo) : List Fmt → List Char → Due
  | [], _ => .fromNow 7
  | f :: fs, s =>
    match tryFmt now f s with
    | .done d => d
    | .overflow => .fromNow 7
    | .cont s' => runFmts now fs s'

/-- The deadline resolution of `create_ics_event` (lines 111-138) for a
present, non-`null`-sentinel deadline string. -/
def resolveDeadline (now : NowInfo) (s : List Char) : Due :=
  runFmts now [.iso, .mdSlash, .kor, .dayK] s

/-! Spec-order model of §4.4: the grammar tried in the order ISO,
relative N-day, month-day, MM/DD; first match wins; fallback +7 days. -/

/-- Spec grammar rule 1: ISO `YYYY-MM-DD`, parsed literally. -/
def tryISOSpec (s : List Char) : Option Due := (parseISO s).map .onDate

/-- Spec grammar rule 2: localized "N-day" phrase (`N일`), resolved to
resolution-instant + N days (a match requires the resulting instant to be
representable). -/
def tryRelativeSpec (now : NowInfo) (s : List Char) : Option Due :=
  if hasChar '일' s then
    match pyInt (s.filter (fun c => c ≠ '일')) with
    | some n => if inAddRange now n then some (.fromNow n) else none
    | none => none
  else none

/-- Spec grammar rule 3: localized "month day" phrase (`M월 D일`), resolved
in the current year of the resolution instant. -/
def tryMonthDaySpec (now : NowInfo) (s : List Char) : Option Due :=
  (parseKorean (yearNyeon now ++ s)).map .onDate

/-- Spec grammar rule 4: `MM/DD`, resolved in the current year. -/
def tryMMDDSpec (now : NowInfo) (s : List Char) : Option Due :=
  (parseSlashMD (yearSlash now ++ s)).map .onDate

/-- §4.4 resolution: rules 1-4 in order, first match wins, otherwise the
fallback of resolution-instant + 7 days. -/
def resolveDeadlineSpec (now : NowInfo) (s : List Char) : Due :=
  match tryISOSpec s with
  | some d => d
  | none =>
    match tryRelativeSpec now s with
    | some d => d
    | none =>
      match tryMonthDaySpec now s with
      | some d => d
      | none =>
        match tryMMDDSpec now s with
        | some d => d
        | none => .fromNow 7

/-! ### Calendar events (`CalendarIntegration`, `ExportManager.create_calendar_zip`) -/

/-- A task dictionary as produced by the JSON analysis: the four fields read
by `create_ics_event`, each possibly absent/`None` (`none`) or a string. -/
structure PyTask where
  task : Option (List Char)
  priority : Option (List Char)
  deadline : Option (List Char)
  assignee : Option (List Char)
deriving DecidableEq, Repr

/-- the line `task.get(...) and ... != null`: `None` and the
empty string are falsy; the sentinel string `null` is excluded. -/
def deadlineGiven (t : PyTask) : Bool :=
  match t.deadline with
  | none => false
  | some s => !s.isEmpty && s ≠ "null".data

/-- the priority mapping low to 5, high to 1, otherwise 3. -/
def prioNum (p : Option (List Char)) : Nat :=
  if p = some "low".data then 5 else if p = some "high".data then 1 else 3

/-- The `VEVENT` produced by `create_ics_event`: the generated uid, the due
instant used for `DTSTART`/`DTEND`, the `DTSTAMP` rendering instant, the
summary, description and numeric priority.  `STATUS` is the fixed
`NEEDS-ACTION`. -/
structure IcsEvent where
  uid : List Char
  dtstart : Due
  dtend : Due
  dtstamp : List Char
  summary : List Char
  description : List Char
  priorityNum : Nat
deriving DecidableEq, Repr

/-- `create_ics_event(task, email_subject)` (lines 104-159), with the
`datetime.now()` samples of one call represented by `now`.  The function
always produces an event: an absent/empty/`null`-sentinel deadline takes the same
`now + 7 days` value as an unparsable one. -/
def create_ics_event (now : NowInfo) (t : PyTask) (subject : List Char) : IcsEvent :=
  let due : Due :=
    match t.deadline with
    | some s => if !s.isEmpty && s ≠ "null".data then resolveDeadline now s else .fromNow 7
    | none => .fromNow 7
  { uid := "email-task-".data ++ now.stamp
    dtstart := due
    dtend := due
    dtstamp := now.stamp
    summary := t.task.getD "할일".data
    description :=
      "우선순위: ".data ++ t.priority.getD "medium".data ++
      "\\n담당자: ".data ++ t.assignee.getD "미정".data ++
      "\\n관련 이메일: ".data ++ subject
    priorityNum := prioNum t.priority }

/-- `re.sub` replacing each path-unsafe character by an underscore. -/
def sanitizeChar (c : Char) : Char :=
  if c = '<' || c = '>' || c = ':' || c = '"' || c = '/' || c = '\\' ||
     c = '|' || c = '?' || c = '*' then '_' else c

/-- The member name `task_<i>_<first 20 chars of the task description>.ics` after
character sanitization. -/
def zipEntryName (i : Nat) (t : PyTask) : List Char :=
  ("task_".data ++ natToDec i ++ "_".data ++
    (t.task.getD "task".data).take 20 ++ ".ics".data).map sanitizeChar

/-- One archive member: its name and the event it contains. -/
structure ZipEntry where
  name : List Char
  event : IcsEvent
deriving DecidableEq, Repr

/-- Loop body of `create_calendar_zip` (lines 490-497): one member per
task, `enumerate(tasks, 1)`; the `clock` gives the `datetime.now()` samples
of the i-th `create_ics_event` call. -/
def calendarZipFrom (clock : Nat → NowInfo) (subject : List Char) :
    Nat → List PyTask → List ZipEntry
  | _, [] => []
  | i, t :: ts =>
    ⟨zipEntryName i t, create_ics_event (clock i) t subject⟩ ::
      calendarZipFrom clock subject (i + 1) ts

/-- `create_calendar_zip(tasks, email_subject)`. -/
def create_calendar_zip (clock : Nat → NowInfo) (tasks : List PyTask)
    (subject : List Char) : List ZipEntry :=
  calendarZipFrom clock subject 1 tasks

/-! ### JSON values and `json.loads` -/

/-- Decoded JSON values; numbers keep their source lexeme (no claim
computes with numeric values, and Python renders them as floats/ints). -/
inductive JVal where
  | jnull
  | jbool (b : Bool)
  | jnum (lexeme : List Char)
  | jstr (s : List Char)
  | jarr (items : List JVal)
  | jobj (fields : List (List Char × JVal))

/-- JSON insignificant whitespace. -/
def jsonWsDrop (l : List Char) : List Char :=
  l.dropWhile (fun c => c = ' ' || c = '\t' || c = '\n' || c = '\r')

def lbrace : Char := Char.ofNat 123
def rbrace : Char := Char.ofNat 125

def hexVal (c : Char) : Option Nat :=
  if 48 ≤ c.toNat && c.toNat ≤ 57 then some (c.toNat - 48)
  else if 97 ≤ c.toNat && c.toNat ≤ 102 then some (c.toNat - 87)
  else if 65 ≤ c.toNat && c.toNat ≤ 70 then some (c.toNat - 55)
  else none

/-- JSON string body after the opening quote; control characters below
0x20 are rejected (`strict=True`).  A `\uXXXX` escape yields the code
point (surrogate halves, unrepresentable as `Char`, map to the `Char.ofNat`
fallback). -/
def jsonStringBody : List Char → Option (List Char × List Char)
  | [] => none
  | '"' :: rest => some ([], rest)
  | '\\' :: e :: rest =>
    match e with
    | '"' => (jsonStringBody rest).map (fun p => ('"' :: p.1, p.2))
    | '\\' => (jsonStringBody rest).map (fun p => ('\\' :: p.1, p.2))
    | '/' => (jsonStringBody rest).map (fun p => ('/' :: p.1, p.2))
    | 'b' => (jsonStringBody rest).map (fun p => (Char.ofNat 8 :: p.1, p.2))
    | 'f' => (jsonStringBody rest).map (fun p => (Char.ofNat 12 :: p.1, p.2))
    | 'n' => (jsonStringBody rest).map (fun p => ('\n' :: p.1, p.2))
    | 'r' => (jsonStringBody rest).map (fun p => ('\r' :: p.1, p.2))
    | 't' => (jsonStringBody rest).map (fun p => ('\t' :: p.1, p.2))
    | 'u' =>
      match rest with
      | h1 :: h2 :: h3 :: h4 :: rest2 =>
        match hexVal h1, hexVal h2, hexVal h3, hexVal h4 with
        | some a, some b, some c, some d =>
          (jsonStringBody rest2).map
            (fun p => (Char.ofNat (4096 * a + 256 * b + 16 * c + d) :: p.1, p.2))
        | _, _, _, _ => none
      | _ => none
    | _ => none
  | c :: rest =>
    if c.toNat < 32 then none
    else (jsonStringBody rest).map (fun p => (c :: p.1, p.2))

/-- JSON number lexeme `-? (0|[1-9][0-9]*) (\.[0-9]+)? ([eE][+-]?[0-9]+)?`,
returned verbatim. -/
def jsonNumberLex (l : List Char) : Option (List Char × List Char) :=
  let intPart : List Char → Option (List Char × List Char) := fun m =>
    match m with
    | '0' :: r => some (['0'], r)
    | c :: r =>
      if 49 ≤ c.toNat && c.toNat ≤ 57 then
        some (c :: r.takeWhile isDigitChar, r.dropWhile isDigitChar)
      else none
    | [] => none
  let (neg, l1) :=
    match l with
    | '-' :: r => (['-'], r)
    | r => (([] : List Char), r)
  match intPart l1 with
  | none => none
  | some (ip, l2) =>
    let (fp, l3) :=
      match l2 with
      | '.' :: r =>
        if (r.takeWhile isDigitChar).isEmpty then (([] : List Char), l2)
        else ('.' :: r.takeWhile isDigitChar, r.dropWhile isDigitChar)
      | _ => (([] : List Char), l2)
    let fracOk : Bool :=
      match l3 with
      | '.' :: _ => false
      | _ => true
    let (ep, l4) :=
      match l3 with
      | e :: r =>
        if e = 'e' || e = 'E' then
          let (sgn, r2) :=
            match r with
            | '+' :: r3 => (['+'], r3)
            | '-' :: r3 => (['-'], r3)
            | r3 => (([] : List Char), r3)
          if (r2.takeWhile isDigitChar).isEmpty then (([] : List Char), l3)
          else (e :: sgn ++ r2.takeWhile isDigitChar, r2.dropWhile isDigitChar)
        else (([] : List Char), l3)
      | [] => (([] : List Char), l3)
    if fracOk then some (neg ++ ip ++ fp ++ ep, l4) else none

mutual
/-- One JSON value (fuel-indexed recursive-descent, mirroring
`json.loads`; the default Python decoder also accepts `NaN`, `Infinity` and
`-Infinity`). -/
def parseJVal : Nat → List Char → Option (JVal × List Char)
  | 0, _ => none
  | Nat.succ fuel, l =>
    let l := jsonWsDrop l
    match l with
    | [] => none
    | c :: rest =>
      if c = '"' then
        (jsonStringBody rest).map (fun p => (JVal.jstr p.1, p.2))
      else if c = lbrace then
        parseObjItems fuel rest true
      else if c = '[' then
        parseArrItems fuel rest true
      else if isPfx "true".data l then some (.jbool true, l.drop 4)
      else if isPfx "false".data l then some (.jbool false, l.drop 5)
      else if isPfx "null".data l then some (.jnull, l.drop 4)
      else if isPfx "NaN".data l then some (.jnum "NaN".data, l.drop 3)
      else if isPfx "Infinity".data l then some (.jnum "Infinity".data, l.drop 8)
      else if isPfx "-Infinity".data l then some (.jnum "-Infinity".data, l.drop 9)
      else
        (jsonNumberLex l).map (fun p => (JVal.jnum p.1, p.2))

/-- Array items after `[` (`first = true` allows an immediate `]`). -/
def parseArrItems : Nat → List Char → Bool → Option (JVal × List Char)
  | 0, _, _ => none
  | Nat.succ fuel, l, first =>
    let l1 := jsonWsDrop l
    match l1 with
    | ']' :: rest => if first then some (.jarr [], rest) else none
    | _ =>
      match parseJVal fuel l1 with
      | none => none
      | some (v, l2) =>
        let l3 := jsonWsDrop l2
        match l3 with
        | ']' :: rest => some (.jarr [v], rest)
        | ',' :: rest =>
          match parseArrItems fuel rest false with
          | some (JVal.jarr vs, l4) => some (.jarr (v :: vs), l4)
          | _ => none
        | _ => none

/-- Object members after the opening brace. -/
def parseObjItems : Nat → List Char → Bool → Option (JVal × List Char)
  | 0, _, _ => none
  | Nat.succ fuel, l, first =>
    let l1 := jsonWsDrop l
    match l1 with
    | c :: rest =>
      if c = rbrace then (if first then some (.jobj [], rest) else none)
      else if c = '"' then
        match jsonStringBody rest with
        | none => none
        | some (key, l2) =>
          match jsonWsDrop l2 with
          | ':' :: l3 =>
            match parseJVal fuel l3 with
            | none => none
            | some (v, l4) =>
              match jsonWsDrop l4 with
              | c2 :: rest2 =>
                if c2 = rbrace then some (.jobj [(key, v)], rest2)
                else if c2 = ',' then
                  match parseObjItems fuel rest2 false with
                  | some (JVal.jobj fs, l5) => some (.jobj ((key, v) :: fs), l5)
                  | _ => none
                else none
              | [] => none
          | _ => none
      else none
    | [] => none
end

/-- `json.loads`: parse one value, allow trailing whitespace only; `none`
models `json.JSONDecodeError`. -/
def jsonLoads (l : List Char) : Option JVal :=
  match parseJVal (2 * l.length + 2) l with
  | some (v, rest) => if jsonWsDrop rest = [] then some v else none
  | none => none

/-- `dict[key]` lookup on parsed object fields; a duplicate key keeps the
last occurrence (Python dict semantics). -/
def jgetL (k : List Char) : List (List Char × JVal) → Option JVal
  | [] => none
  | (k', v) :: rest => match jgetL k rest with
    | some w => some w
    | none => if k' = k then some v else none

/-- `result.get(key)` on a parsed JSON value (objects only). -/
def jget (k : List Char) : JVal → Option JVal
  | .jobj fs => jgetL k fs
  | _ => none

/-! ### Fenced-block extraction and the repairer (`analyze_email`) -/

/-- The opening fence of the regex pattern (three backticks, `json`, LF). -/
def fenceO : List Char := "```json\n".data

/-- The closing delimiter `` "\n```" ``. -/
def closeO : List Char := "\n```".data

/-- First occurrence of `pat`: the text before it and the text after it. -/
def splitOnFirst (pat : List Char) : List Char → Option (List Char × List Char)
  | [] => none
  | c :: rest =>
    if isPfx pat (c :: rest) then some ([], (c :: rest).drop pat.length)
    else
      match splitOnFirst pat rest with
      | some (b, a) => some (c :: b, a)
      | none => none

/-- Whether `pat` occurs as a contiguous substring. -/
def occursIn (pat : List Char) : List Char → Bool
  | [] => pat.isEmpty
  | c :: rest => isPfx pat (c :: rest) || occursIn pat rest

/-- The `re.search` with the lazy DOTALL fenced-json pattern: the leftmost
opening fence, then the lazy group up to the earliest following close
(read the module lemmas for why this equals the regex semantics). -/
def extractBlock (l : List Char) : Option (List Char) :=
  match splitOnFirst fenceO l with
  | none => none
  | some (_, after) =>
    match splitOnFirst closeO after with
    | some (mid, _) => some mid
    | none => none

/-- `_parse_fallback_response(response_text)` (lines 582-593). -/
def fallbackResult (t : List Char) : JVal :=
  .jobj
    [("summary".data, .jstr "분석 결과를 파싱하는 중 오류가 발생했습니다.".data),
     ("key_points".data, .jarr [.jstr "원시 응답을 확인하세요.".data]),
     ("tasks".data, .jarr []),
     ("action_items".data, .jarr []),
     ("follow_up".data, .jstr "다시 시도해주세요.".data),
     ("sentiment".data, .jstr "neutral".data),
     ("urgency_level".data, .jstr "medium".data),
     ("raw_response".data, .jstr t)]

/-- Lines 563-574 of `analyze_email`: extract the fenced block (or use the
whole reply), `json.loads` it, and on `JSONDecodeError` return the fixed
degraded result built from the whole reply text. -/
def repairReply (t : List Char) : JVal :=
  let jsonStr := (extractBlock t).getD t
  match jsonLoads jsonStr with
  | some v => v
  | none => fallbackResult t

/-- `str.strip()` (ASCII whitespace subset). -/
def pyStrip (l : List Char) : List Char :=
  ((l.dropWhile pyIsSpace).reverse.dropWhile pyIsSpace).reverse

/-- Outcome of one `analyze_email` invocation: the pre-request
configuration exception, the caller-visible `None` after a failed external
call (`st.error` + `return None`), or a returned analysis value. -/
inductive AnalyzeOutcome where
  | notConfigured
  | transportFailed
  | ok (result : JVal)

/-- `analyze_email(email_content, model_name)` (lines 519-580): the single
external call is represented by its outcome `call` (the raw
`choices[0].message.content` on success).  The unconfigured-client check
precedes — and is independent of — the call. -/
def analyze_email (configured : Bool) (call : Except Unit (List Char)) :
    AnalyzeOutcome :=
  if !configured then .notConfigured
  else
    match call with
    | .error _ => .transportFailed
    | .ok content => .ok (repairReply (pyStrip content))

/-- The urgency cell of the Excel summary sheet (line 449):
`analysis_result.get(...)` with default `medium`. -/
def excelUrgencyCell (fields : List (List Char × JVal)) : JVal :=
  (jgetL "urgency_level".data fields).getD (.jstr "medium".data)

/-- The sentiment cell of the Excel summary sheet (line 450):
`analysis_result.get(...)` with default `neutral`. -/
def excelSentimentCell (fields : List (List Char × JVal)) : JVal :=
  (jgetL "sentiment".data fields).getD (.jstr "neutral".data)

/-! ### EML parsing (`EmailParser.parse_eml_file`) -/

/-- A leaf part yielded by `msg.walk()`, already decoded
(lenient UTF-8 decode, invalid bytes dropped), classified by content type. -/
inductive MimePart where
  | plain (content : List Char)
  | html (content : List Char)
  | other
deriving DecidableEq, Repr

/-- The body source: the walked parts of a multipart message, or a single
payload. -/
inductive EmlContent where
  | multi (parts : List MimePart)
  | single (payload : List Char)
deriving DecidableEq, Repr

/-- The parsed message object: the four headers (absent ⇒ `msg.get`
default) and the content. -/
structure EmlMsg where
  subject : Option (List Char)
  sender : Option (List Char)
  recipients : Option (List Char)
  date : Option (List Char)
  content : EmlContent
deriving DecidableEq, Repr

/-- The tag strip `re.sub` with pattern `<[^>]+>`: remove every leftmost
non-overlapping `<`…`>` span with a non-empty interior. -/
def stripTags : List Char → List Char
  | [] => []
  | c :: rest =>
    if c = '<' then
      match h : rest.dropWhile (fun x => x ≠ '>') with
      | '>' :: rest2 =>
        if (rest.takeWhile (fun x => x ≠ '>')).isEmpty then
          '<' :: stripTags rest
        else stripTags rest2
      | _ => '<' :: stripTags rest
    else c :: stripTags rest
termination_by l => l.length
decreasing_by
  all_goals simp only [List.length_cons]
  all_goals try omega
  have hdw : ∀ (l : List Char),
      (l.dropWhile (fun x => x ≠ '>')).length ≤ l.length := by
    intro l
    induction l with
    | nil => simp [List.dropWhile]
    | cons a as ih =>
      rw [List.dropWhile_cons]
      split
      · exact Nat.le_succ_of_le ih
      · simp
  have h1 : ('>' :: rest2).length ≤ rest.length := by rw [← h]; exact hdw rest
  simp only [List.length_cons] at h1
  omega

/-- The body-assembly loop of lines 53-62: every `text/plain` part is
appended (`body += ...`); a `text/html` part replaces the body only when
the body accumulated so far is empty. -/
def assembleFrom (body : List Char) : List MimePart → List Char
  | [] => body
  | .plain c :: rest => assembleFrom (body ++ c) rest
  | .html c :: rest =>
    assembleFrom (if body.isEmpty then stripTags c else body) rest
  | .other :: rest => assembleFrom body rest

/-- Body assembly for a multipart message. -/
def assembleBody (parts : List MimePart) : List Char := assembleFrom [] parts

/-- The dictionary returned by `parse_eml_file`. -/
structure EmailRecord where
  subject : List Char
  sender : List Char
  recipients : List Char
  date : List Char
  body : List Char
  full_content : List Char
deriving DecidableEq, Repr

/-- `parse_eml_file(file_content)` (lines 41-73) on the parsed message. -/
def parse_eml_file (m : EmlMsg) : EmailRecord :=
  let subject := m.subject.getD []
  let sender := m.sender.getD []
  let recipients := m.recipients.getD []
  let date := m.date.getD []
  let body :=
    match m.content with
    | .multi parts => assembleBody parts
    | .single payload => payload
  { subject, sender, recipients, date, body
    full_content :=
      "제목: ".data ++ subject ++ "\n발신자: ".data ++ sender ++
      "\n수신자: ".data ++ recipients ++ "\n날짜: ".data ++ date ++
      "\n\n".data ++ body }

/-- First non-empty string in a list (`[]` if none). -/
def firstNonempty : List (List Char) → List Char
  | [] => []
  | c :: rest => if c.isEmpty then firstNonempty rest else c

/-- The plain-text contents of a part list, in order. -/
def plainContents : List MimePart → List (List Char)
  | [] => []
  | .plain c :: rest => c :: plainContents rest
  | _ :: rest => plainContents rest

/-- The HTML contents of a part list, in order. -/
def htmlContents : List MimePart → List (List Char)
  | [] => []
  | .html c :: rest => c :: htmlContents rest
  | _ :: rest => htmlContents rest

/-- Whether the part list has a plain-text part. -/
def hasPlain : List MimePart → Bool
  | [] => false
  | .plain _ :: _ => true
  | _ :: rest => hasPlain rest

/-- Whether the part list has an HTML part. -/
def hasHtml : List MimePart → Bool
  | [] => false
  | .html _ :: _ => true
  | _ :: rest => hasHtml rest

/-! ### Concrete example values used in the claim witnesses below -/

/-- An example resolution instant: 2025-10-12 12:00:00. -/
def exNow : NowInfo := ⟨2025, 739171, "20251012120000".data⟩

/-- A frozen clock: every `datetime.now()` call lands in the same second. -/
def cstClock : Nat → NowInfo := fun _ => exNow

/-- A clock with pairwise-distinct `strftime` stamps. -/
def repClock : Nat → NowInfo := fun i => ⟨2025, 739171, List.replicate i 'x'⟩

/-- A task whose `deadline` field is `None`. -/
def exTaskNoDeadline : PyTask := ⟨some "예산 검토".data, none, none, none⟩

/-- A task with an ISO deadline. -/
def taskA : PyTask := ⟨some "회의 준비".data, some "high".data, some "2025-03-10".data, none⟩

/-- A task with a `None` deadline and an assignee. -/
def taskB : PyTask := ⟨some "보고서 작성".data, some "low".data, none, some "김 대리".data⟩

/-- A reply that is exactly an empty JSON object. -/
def emptyObjReply : List Char := "\x7b\x7d".data

/-- An unparsable reply. -/
def badReply : List Char := "이메일 분석 결과입니다".data

/-- Another unparsable reply. -/
def badReply2 : List Char := "응답 파싱 실패 사례".data

/-- A fenced block with an upper-case language tag. -/
def caseUpper : List Char := "```JSON\n\x7b\x7d\n```".data

/-- A fenced block framed with CRLF line endings. -/
def caseCRLF : List Char := "```json\r\n\x7b\x7d\r\n```".data

/-- A fenced block with no language tag. -/
def caseNoTag : List Char := "```\n\x7b\x7d\n```".data

/-- A fenced block with a different language tag. -/
def caseYaml : List Char := "```yaml\nkey: value\n```".data

/-- A well-formed fenced reply. -/
def caseGood : List Char := "머리말 ```json\nnull\n``` 꼬리".data

/-- A multipart message with two plain-text parts and no headers. -/
def twoPlainMsg : EmlMsg :=
  ⟨none, none, none, none, .multi [.plain "첫번째".data, .plain "두번째".data]⟩

/-- A multipart message with a single plain-text part. -/
def onePlainMsg : EmlMsg :=
  ⟨some "제목A".data, none, none, none, .multi [.other, .plain "본문".data]⟩

/-! ## Lemmas -/

theorem hasChar_iff {c : Char} {l : List Char} : hasChar c l = true ↔ c ∈ l := by
  simp only [hasChar, List.any_eq_true, beq_iff_eq]
  constructor
  · rintro ⟨x, hx, rfl⟩; exact hx
  · intro h; exact ⟨c, h, rfl⟩

theorem mem_of_dropWhile_nil {p : Char → Bool} {l : List Char}
    (h : l.dropWhile p = []) : ∀ c ∈ l, p c = true := by
  induction l with
  | nil => intro c hc; cases hc
  | cons a as ih =>
    rw [List.dropWhile_cons] at h
    split at h
    · intro c hc
      rcases List.mem_cons.mp hc with rfl | hc'
      · assumption
      · exact ih h c hc'
    · cases h

theorem mem_dropWhile_or {p : Char → Bool} {l : List Char} :
    ∀ c ∈ l, p c = true ∨ c ∈ l.dropWhile p := by
  induction l with
  | nil => intro c hc; cases hc
  | cons a as ih =>
    intro c hc
    rw [List.dropWhile_cons]
    rcases List.mem_cons.mp hc with rfl | hc'
    · split
      · left; assumption
      · right; exact List.mem_cons_self _ _
    · split
      · exact ih c hc'
      · right; exact List.mem_cons_of_mem _ hc'

theorem mem_of_mem_dropWhile {p : Char → Bool} {l : List Char} :
    ∀ c ∈ l.dropWhile p, c ∈ l := by
  induction l with
  | nil => intro c hc; simp [List.dropWhile] at hc
  | cons a as ih =>
    intro c hc
    rw [List.dropWhile_cons] at hc
    split at hc
    · exact List.mem_cons_of_mem _ (ih c hc)
    · exact hc

theorem litc_eq {x : Char} {l r : List Char} : litc x l = some r ↔ l = x :: r := by
  cases l with
  | nil => simp [litc]
  | cons c rest =>
    by_cases hc : c = x
    · subst hc; simp [litc]
    · simp [litc, hc, Ne.symm hc]

theorem firstSome_eq_some {α β : Type} {as : List α} {k : α → Option β} {b : β}
    (h : firstSome as k = some b) : ∃ a ∈ as, k a = some b := by
  induction as with
  | nil => cases h
  | cons a as ih =>
    simp only [firstSome] at h
    split at h
    · exact ⟨a, List.mem_cons_self _ _, by rw [‹k a = some _›]; exact h⟩
    · rcases ih h with ⟨a', ha', hk⟩
      exact ⟨a', List.mem_cons_of_mem _ ha', hk⟩

theorem take4Digits_some {l r : List Char} {y : Nat}
    (h : take4Digits l = some (y, r)) :
    ∃ a b c d, l = a :: b :: c :: d :: r ∧ isDigitChar a ∧ isDigitChar b ∧
      isDigitChar c ∧ isDigitChar d := by
  match l with
  | [] => cases h
  | [a] => cases h
  | [a, b] => cases h
  | [a, b, c] => cases h
  | a :: b :: c :: d :: rest =>
    simp only [take4Digits] at h
    split at h
    · rename_i hdig
      injection h with h'
      injection h' with h1 h2
      subst h2
      simp only [Bool.and_eq_true] at hdig
      exact ⟨a, b, c, d, rfl, hdig.1.1.1, hdig.1.1.2, hdig.1.2, hdig.2⟩
    · cases h

theorem monthAlts_mem {l r : List Char} {m : Nat} (h : (m, r) ∈ monthAlts l) :
    (∃ a b rest, l = a :: b :: rest ∧ isDigitChar a ∧ r = b :: rest) ∨
    (∃ a b, l = a :: b :: r ∧ isDigitChar a ∧ isDigitChar b) ∨
    (∃ a, l = a :: r ∧ isDigitChar a ∧ r = []) := by
  match l with
  | [] => cases h
  | [a] =>
    simp only [monthAlts] at h
    split at h
    · rename_i ha
      rcases List.mem_singleton.mp h with h'
      injection h' with h1 h2
      subst h2
      right; right
      refine ⟨a, rfl, ?_, rfl⟩
      simp only [Bool.and_eq_true, decide_eq_true_eq] at ha
      simp only [isDigitChar, Bool.and_eq_true, decide_eq_true_eq]
      omega
    · cases h
  | a :: b :: rest =>
    simp only [monthAlts, List.mem_append] at h
    have hdig : ∀ x : Char, 48 ≤ x.toNat → x.toNat ≤ 57 → isDigitChar x := by
      intro x h1 h2
      simp only [isDigitChar, Bool.and_eq_true, decide_eq_true_eq]
      omega
    rcases h with (h | h) | h
    · split at h
      · rename_i hc
        rcases List.mem_singleton.mp h with h'
        injection h' with h1 h2
        subst h2
        simp only [Bool.and_eq_true, decide_eq_true_eq] at hc
        obtain ⟨⟨hc1, hc2⟩, hc3⟩ := hc
        right; left
        refine ⟨a, b, rfl, ?_, ?_⟩
        · rw [hc1]; decide
        · exact hdig b hc2 (by omega)
      · cases h
    · split at h
      · rename_i hc
        rcases List.mem_singleton.mp h with h'
        injection h' with h1 h2
        subst h2
        simp only [Bool.and_eq_true, decide_eq_true_eq] at hc
        obtain ⟨⟨hc1, hc2⟩, hc3⟩ := hc
        right; left
        refine ⟨a, b, rfl, ?_, ?_⟩
        · rw [hc1]; decide
        · exact hdig b (by omega) hc3
      · cases h
    · split at h
      · rename_i hc
        rcases List.mem_singleton.mp h with h'
        injection h' with h1 h2
        subst h2
        simp only [Bool.and_eq_true, decide_eq_true_eq] at hc
        obtain ⟨hc1, hc2⟩ := hc
        left
        exact ⟨a, b, rest, rfl, hdig a (by omega) hc2, rfl⟩
      · cases h

/-- Composing two consumption decompositions. -/
theorem decomp_trans {P : Char → Prop} {l r s pre1 pre2 : List Char}
    (h1 : l = pre1 ++ r) (h2 : r = pre2 ++ s)
    (hp1 : ∀ c ∈ pre1, P c) (hp2 : ∀ c ∈ pre2, P c) :
    ∃ pre, l = pre ++ s ∧ ∀ c ∈ pre, P c := by
  refine ⟨pre1 ++ pre2, ?_, ?_⟩
  · rw [h1, h2, List.append_assoc]
  · intro c hc
    rcases List.mem_append.mp hc with hc | hc
    · exact hp1 c hc
    · exact hp2 c hc

/-- Composing a decomposition with one literal-character consumption. -/
theorem decomp_trans_cons {P : Char → Prop} {l r s pre1 : List Char} {x : Char}
    (h1 : l = pre1 ++ r) (h2 : r = x :: s)
    (hp1 : ∀ c ∈ pre1, P c) (hpx : P x) :
    ∃ pre, l = pre ++ s ∧ ∀ c ∈ pre, P c := by
  refine ⟨pre1 ++ [x], ?_, ?_⟩
  · rw [h1, h2, List.append_assoc]; rfl
  · intro c hc
    rcases List.mem_append.mp hc with hc | hc
    · exact hp1 c hc
    · rcases List.mem_singleton.mp hc with rfl; exact hpx

/-- A decomposition transfers membership from the remainder to the whole. -/
theorem mem_of_decomp {l r pre : List Char} (h : l = pre ++ r) :
    ∀ c ∈ r, c ∈ l := by
  intro c hc; rw [h]; exact List.mem_append_right _ hc

/-- Characters of the whole are consumed (in the class) or survive. -/
theorem chars_of_decomp {P : Char → Prop} {l r pre : List Char}
    (h : l = pre ++ r) (hp : ∀ c ∈ pre, P c) :
    ∀ c ∈ l, c ∈ r ∨ P c := by
  intro c hc
  rw [h] at hc
  rcases List.mem_append.mp hc with hc | hc
  · exact Or.inr (hp c hc)
  · exact Or.inl hc

theorem take4Digits_decomp {l r : List Char} {y : Nat}
    (h : take4Digits l = some (y, r)) :
    ∃ pre, l = pre ++ r ∧ ∀ c ∈ pre, isDigitChar c := by
  obtain ⟨a, b, c, d, hl, ha, hb, hc, hd⟩ := take4Digits_some h
  refine ⟨[a, b, c, d], hl, ?_⟩
  intro x hx
  rcases hx with _ | ⟨_, _ | ⟨_, _ | ⟨_, _ | ⟨_, hx⟩⟩⟩⟩ <;> first | assumption | cases ‹x ∈ []›

theorem litc_decomp {x : Char} {l r : List Char} (h : litc x l = some r) :
    l = [x] ++ r ∧ ∀ c ∈ [x], c = x := by
  refine ⟨litc_eq.mp h, ?_⟩
  intro c hc
  rcases hc with _ | ⟨_, hc⟩
  · rfl
  · cases hc

theorem mem_takeWhile_sat {p : Char → Bool} {l : List Char} :
    ∀ c ∈ l.takeWhile p, p c = true := by
  induction l with
  | nil => intro c hc; simp [List.takeWhile] at hc
  | cons a as ih =>
    intro c hc
    rw [List.takeWhile_cons] at hc
    split at hc
    · rcases List.mem_cons.mp hc with rfl | hc'
      · assumption
      · exact ih c hc'
    · cases hc

theorem wsPlus_decomp {l r : List Char} (h : wsPlus l = some r) :
    ∃ pre, l = pre ++ r ∧ ∀ c ∈ pre, pyIsSpace c := by
  cases l with
  | nil => cases h
  | cons a as =>
    simp only [wsPlus] at h
    split at h
    · rename_i hsp
      injection h with h'
      refine ⟨a :: as.takeWhile pyIsSpace, ?_, ?_⟩
      · rw [← h']
        simp only [List.cons_append]
        rw [List.takeWhile_append_dropWhile]
      · intro c hc
        rcases List.mem_cons.mp hc with rfl | hc'
        · assumption
        · exact mem_takeWhile_sat c hc'
    · cases h

theorem monthAlts_decomp {l r : List Char} {m : Nat} (h : (m, r) ∈ monthAlts l) :
    ∃ pre, l = pre ++ r ∧ ∀ c ∈ pre, isDigitChar c := by
  rcases monthAlts_mem h with ⟨a, b, rest, hl, ha, hr⟩ | ⟨a, b, hl, ha, hb⟩ |
    ⟨a, hl, ha, hr⟩
  · refine ⟨[a], by rw [hl, hr]; rfl, ?_⟩
    intro c hc
    rcases hc with _ | ⟨_, hc⟩
    · exact ha
    · cases hc
  · refine ⟨[a, b], by rw [hl]; rfl, ?_⟩
    intro c hc
    rcases hc with _ | ⟨_, _ | ⟨_, hc⟩⟩ <;> first | assumption | cases ‹c ∈ []›
  · refine ⟨[a], by rw [hl]; rfl, ?_⟩
    intro c hc
    rcases hc with _ | ⟨_, hc⟩
    · exact ha
    · cases hc

theorem dayAlts_mem {l r : List Char} {m : Nat} (h : (m, r) ∈ dayAlts l) :
    (∃ a b rest, l = a :: b :: rest ∧ isDigitChar a ∧ r = b :: rest) ∨
    (∃ a b, l = a :: b :: r ∧ isDigitChar a ∧ isDigitChar b) ∨
    (∃ a, l = a :: r ∧ isDigitChar a ∧ r = []) := by
  have hdig : ∀ x : Char, 48 ≤ x.toNat → x.toNat ≤ 57 → isDigitChar x := by
    intro x h1 h2
    simp only [isDigitChar, Bool.and_eq_true, decide_eq_true_eq]
    omega
  match l with
  | [] => cases h
  | [a] =>
    simp only [dayAlts] at h
    split at h
    · rename_i ha
      rcases List.mem_singleton.mp h with h'
      injection h' with h1 h2
      subst h2
      simp only [Bool.and_eq_true, decide_eq_true_eq] at ha
      right; right
      exact ⟨a, rfl, hdig a (by omega) ha.2, rfl⟩
    · cases h
  | a :: b :: rest =>
    simp only [dayAlts, List.mem_append] at h
    rcases h with ((h | h) | h) | h
    · split at h
      · rename_i hc
        rcases List.mem_singleton.mp h with h'
        injection h' with h1 h2
        subst h2
        simp only [Bool.and_eq_true, Bool.or_eq_true, decide_eq_true_eq] at hc
        obtain ⟨hc1, hc2⟩ := hc
        right; left
        refine ⟨a, b, rfl, by rw [hc1]; decide, ?_⟩
        rcases hc2 with hb | hb <;> rw [hb] <;> decide
      · cases h
    · split at h
      · rename_i hc
        rcases List.mem_singleton.mp h with h'
        injection h' with h1 h2
        subst h2
        simp only [Bool.and_eq_true, Bool.or_eq_true, decide_eq_true_eq] at hc
        obtain ⟨hc1, hc2⟩ := hc
        right; left
        refine ⟨a, b, rfl, ?_, hc2⟩
        rcases hc1 with ha | ha <;> rw [ha] <;> decide
      · cases h
    · split at h
      · rename_i hc
        rcases List.mem_singleton.mp h with h'
        injection h' with h1 h2
        subst h2
        simp only [Bool.and_eq_true, decide_eq_true_eq] at hc
        obtain ⟨⟨hc1, hc2⟩, hc3⟩ := hc
        right; left
        exact ⟨a, b, rfl, by rw [hc1]; decide, hdig b (by omega) hc3⟩
      · cases h
    · split at h
      · rename_i hc
        rcases List.mem_singleton.mp h with h'
        injection h' with h1 h2
        subst h2
        simp only [Bool.and_eq_true, decide_eq_true_eq] at hc
        obtain ⟨hc1, hc2⟩ := hc
        left
        exact ⟨a, b, rest, rfl, hdig a (by omega) hc2, rfl⟩
      · cases h

theorem dayAlts_decomp {l r : List Char} {m : Nat} (h : (m, r) ∈ dayAlts l) :
    ∃ pre, l = pre ++ r ∧ ∀ c ∈ pre, isDigitChar c := by
  rcases dayAlts_mem h with ⟨a, b, rest, hl, ha, hr⟩ | ⟨a, b, hl, ha, hb⟩ |
    ⟨a, hl, ha, hr⟩
  · refine ⟨[a], by rw [hl, hr]; rfl, ?_⟩
    intro c hc
    rcases hc with _ | ⟨_, hc⟩
    · exact ha
    · cases hc
  · refine ⟨[a, b], by rw [hl]; rfl, ?_⟩
    intro c hc
    rcases hc with _ | ⟨_, _ | ⟨_, hc⟩⟩ <;> first | assumption | cases ‹c ∈ []›
  · refine ⟨[a], by rw [hl]; rfl, ?_⟩
    intro c hc
    rcases hc with _ | ⟨_, hc⟩
    · exact ha
    · cases hc

theorem digitChar_toNat {r : Nat} (h : r < 10) : (Char.ofNat (48 + r)).toNat = 48 + r := by
  interval_cases r <;> decide

theorem digitChar_isDigit {r : Nat} (h : r < 10) : isDigitChar (Char.ofNat (48 + r)) := by
  interval_cases r <;> decide

theorem natToDecAux_digits :
    ∀ (fuel n : Nat), ∀ c ∈ natToDecAux fuel n, isDigitChar c := by
  intro fuel
  induction fuel with
  | zero => intro n c hc; cases hc
  | succ fuel ih =>
    intro n c hc
    rw [natToDecAux] at hc
    split at hc
    · rename_i h
      rcases List.mem_singleton.mp hc with rfl
      exact digitChar_isDigit h
    · rcases List.mem_append.mp hc with hc | hc
      · exact ih (n / 10) c hc
      · rcases List.mem_singleton.mp hc with rfl
        exact digitChar_isDigit (Nat.mod_lt _ (by decide))

theorem natToDec_digits (n : Nat) : ∀ c ∈ natToDec n, isDigitChar c :=
  natToDecAux_digits (n + 1) n

theorem natToDec_ne_nil (n : Nat) : natToDec n ≠ [] := by
  unfold natToDec
  rw [natToDecAux]
  split
  · simp
  · simp

/-- Class of characters a digit can be: not `'월'`, `'일'`, `'년'`, `'/'`
disambiguators used below. -/
theorem digit_ne {c x : Char} (hd : isDigitChar c = true) (hx : 58 ≤ x.toNat ∨ x.toNat < 48) :
    c ≠ x := by
  intro h
  subst h
  simp only [isDigitChar, Bool.and_eq_true, decide_eq_true_eq] at hd
  omega

theorem matchISO_decomp {l rest : List Char} {y m d : Nat}
    (h : matchISO l = some (y, m, d, rest)) :
    ∃ pre, l = pre ++ rest ∧ ∀ c ∈ pre, isDigitChar c = true ∨ c = '-' := by
  unfold matchISO at h
  cases h4 : take4Digits l with
  | none => rw [h4] at h; cases h
  | some p =>
    obtain ⟨y', r1⟩ := p
    rw [h4] at h
    dsimp only at h
    cases hl1 : litc '-' r1 with
    | none => rw [hl1] at h; cases h
    | some r2 =>
      rw [hl1] at h
      obtain ⟨⟨m', r3⟩, hmem, hk⟩ := firstSome_eq_some h
      dsimp only at hk
      cases hl2 : litc '-' r3 with
      | none => rw [hl2] at hk; cases hk
      | some r4 =>
        rw [hl2] at hk
        obtain ⟨⟨d', r5⟩, hdm, hk2⟩ := firstSome_eq_some hk
        dsimp only at hk2
        injection hk2 with hk2
        obtain ⟨rfl, rfl, rfl, rfl⟩ :
            y' = y ∧ m' = m ∧ d' = d ∧ r5 = rest := by
          refine ⟨congrArg Prod.fst hk2, ?_, ?_, ?_⟩
          · have := congrArg Prod.snd hk2; exact congrArg Prod.fst this
          · have := congrArg Prod.snd hk2
            have := congrArg Prod.snd this
            exact congrArg Prod.fst this
          · have := congrArg Prod.snd hk2
            have := congrArg Prod.snd this
            exact congrArg Prod.snd this
        obtain ⟨p1, hd1, hp1⟩ := take4Digits_decomp h4
        obtain ⟨p2, hd2, hp2⟩ := monthAlts_decomp hmem
        obtain ⟨p3, hd3, hp3⟩ := dayAlts_decomp hdm
        have s1 : ∃ pre, l = pre ++ r2 ∧
            ∀ c ∈ pre, isDigitChar c = true ∨ c = '-' :=
          decomp_trans_cons hd1 (litc_eq.mp hl1)
            (fun c hc => Or.inl (hp1 c hc)) (Or.inr rfl)
        obtain ⟨q1, he1, hq1⟩ := s1
        have s2 : ∃ pre, l = pre ++ r3 ∧
            ∀ c ∈ pre, isDigitChar c = true ∨ c = '-' :=
          decomp_trans he1 hd2 hq1 (fun c hc => Or.inl (hp2 c hc))
        obtain ⟨q2, he2, hq2⟩ := s2
        have s3 : ∃ pre, l = pre ++ r4 ∧
            ∀ c ∈ pre, isDigitChar c = true ∨ c = '-' :=
          decomp_trans_cons he2 (litc_eq.mp hl2) hq2 (Or.inr rfl)
        obtain ⟨q3, he3, hq3⟩ := s3
        exact decomp_trans he3 hd3 hq3 (fun c hc => Or.inl (hp3 c hc))

theorem parseISO_none_of_mem {l : List Char} {c0 : Char} (hmem : c0 ∈ l)
    (h1 : isDigitChar c0 = false) (h2 : c0 ≠ '-') : parseISO l = none := by
  cases hp : parseISO l with
  | none => rfl
  | some pd =>
    exfalso
    unfold parseISO at hp
    cases hm : matchISO l with
    | none => rw [hm] at hp; cases hp
    | some q =>
      obtain ⟨y, m, d, rest⟩ := q
      rw [hm] at hp
      dsimp only at hp
      split at hp
      · rename_i hcond
        simp only [Bool.and_eq_true, decide_eq_true_eq] at hcond
        obtain ⟨p, hdec, hcls⟩ := matchISO_decomp hm
        rw [hcond.1, List.append_nil] at hdec
        subst hdec
        rcases hcls c0 hmem with hc | hc
        · rw [hc] at h1; cases h1
        · exact h2 hc
      · cases hp

theorem matchSlashMD_decomp {l rest : List Char} {y m d : Nat}
    (h : matchSlashMD l = some (y, m, d, rest)) :
    ∃ pre, l = pre ++ rest ∧ ∀ c ∈ pre, isDigitChar c = true ∨ c = '/' := by
  unfold matchSlashMD at h
  cases h4 : take4Digits l with
  | none => rw [h4] at h; cases h
  | some p =>
    obtain ⟨y', r1⟩ := p
    rw [h4] at h
    dsimp only at h
    cases hl1 : litc '/' r1 with
    | none => rw [hl1] at h; cases h
    | some r2 =>
      rw [hl1] at h
      obtain ⟨⟨m', r3⟩, hmem, hk⟩ := firstSome_eq_some h
      dsimp only at hk
      cases hl2 : litc '/' r3 with
      | none => rw [hl2] at hk; cases hk
      | some r4 =>
        rw [hl2] at hk
        obtain ⟨⟨d', r5⟩, hdm, hk2⟩ := firstSome_eq_some hk
        dsimp only at hk2
        injection hk2 with hk2
        have hrest : r5 = rest := by
          have := congrArg Prod.snd hk2
          have := congrArg Prod.snd this
          exact congrArg Prod.snd this
        subst hrest
        obtain ⟨p1, hd1, hp1⟩ := take4Digits_decomp h4
        obtain ⟨p2, hd2, hp2⟩ := monthAlts_decomp hmem
        obtain ⟨p3, hd3, hp3⟩ := dayAlts_decomp hdm
        have s1 : ∃ pre, l = pre ++ r2 ∧
            ∀ c ∈ pre, isDigitChar c = true ∨ c = '/' :=
          decomp_trans_cons hd1 (litc_eq.mp hl1)
            (fun c hc => Or.inl (hp1 c hc)) (Or.inr rfl)
        obtain ⟨q1, he1, hq1⟩ := s1
        have s2 : ∃ pre, l = pre ++ r3 ∧
            ∀ c ∈ pre, isDigitChar c = true ∨ c = '/' :=
          decomp_trans he1 hd2 hq1 (fun c hc => Or.inl (hp2 c hc))
        obtain ⟨q2, he2, hq2⟩ := s2
        have s3 : ∃ pre, l = pre ++ r4 ∧
            ∀ c ∈ pre, isDigitChar c = true ∨ c = '/' :=
          decomp_trans_cons he2 (litc_eq.mp hl2) hq2 (Or.inr rfl)
        obtain ⟨q3, he3, hq3⟩ := s3
        exact decomp_trans he3 hd3 hq3 (fun c hc => Or.inl (hp3 c hc))

theorem parseSlashMD_none_of_mem {l : List Char} {c0 : Char} (hmem : c0 ∈ l)
    (h1 : isDigitChar c0 = false) (h2 : c0 ≠ '/') : parseSlashMD l = none := by
  cases hp : parseSlashMD l with
  | none => rfl
  | some pd =>
    exfalso
    unfold parseSlashMD at hp
    cases hm : matchSlashMD l with
    | none => rw [hm] at hp; cases hp
    | some q =>
      obtain ⟨y, m, d, rest⟩ := q
      rw [hm] at hp
      dsimp only at hp
      split at hp
      · rename_i hcond
        simp only [Bool.and_eq_true, decide_eq_true_eq] at hcond
        obtain ⟨p, hdec, hcls⟩ := matchSlashMD_decomp hm
        rw [hcond.1, List.append_nil] at hdec
        subst hdec
        rcases hcls c0 hmem with hc | hc
        · rw [hc] at h1; cases h1
        · exact h2 hc
      · cases hp

theorem matchKorean_wol {l rest : List Char} {y m d : Nat}
    (h : matchKorean l = some (y, m, d, rest)) : '월' ∈ l := by
  unfold matchKorean at h
  cases h4 : take4Digits l with
  | none => rw [h4] at h; cases h
  | some p =>
    obtain ⟨y', r1⟩ := p
    rw [h4] at h
    dsimp only at h
    cases hl1 : litc '년' r1 with
    | none => rw [hl1] at h; cases h
    | some r2 =>
      rw [hl1] at h
      dsimp only at h
      cases hw1 : wsPlus r2 with
      | none => rw [hw1] at h; cases h
      | some r3 =>
        rw [hw1] at h
        dsimp only at h
        obtain ⟨⟨m', r4⟩, hmem, hk⟩ := firstSome_eq_some h
        dsimp only at hk
        cases hl2 : litc '월' r4 with
        | none => rw [hl2] at hk; cases hk
        | some r5 =>
          have hw : '월' ∈ r4 := by rw [litc_eq.mp hl2]; exact List.mem_cons_self _ _
          obtain ⟨p2, hd2, _⟩ := monthAlts_decomp hmem
          have hw3 : '월' ∈ r3 := mem_of_decomp hd2 _ hw
          obtain ⟨pw, hdw, _⟩ := wsPlus_decomp hw1
          have hw2 : '월' ∈ r2 := mem_of_decomp hdw _ hw3
          have hw1' : '월' ∈ r1 := by
            rw [litc_eq.mp hl1]; exact List.mem_cons_of_mem _ hw2
          obtain ⟨p1, hd1, _⟩ := take4Digits_decomp h4
          exact mem_of_decomp hd1 _ hw1'

theorem parseKorean_none_of_not_wol {l : List Char} (h : '월' ∉ l) :
    parseKorean l = none := by
  cases hp : parseKorean l with
  | none => rfl
  | some pd =>
    exfalso
    unfold parseKorean at hp
    cases hm : matchKorean l with
    | none => rw [hm] at hp; cases hp
    | some q =>
      obtain ⟨y, m, d, rest⟩ := q
      exact h (matchKorean_wol hm)

theorem matchSlashKor_wol {l rest : List Char} {y m d : Nat}
    (h : matchSlashKor l = some (y, m, d, rest)) : '월' ∈ l := by
  unfold matchSlashKor at h
  cases h4 : take4Digits l with
  | none => rw [h4] at h; cases h
  | some p =>
    obtain ⟨y', r1⟩ := p
    rw [h4] at h
    dsimp only at h
    cases hl1 : litc '/' r1 with
    | none => rw [hl1] at h; cases h
    | some r2 =>
      rw [hl1] at h
      dsimp only at h
      obtain ⟨⟨m', r3⟩, hmem, hk⟩ := firstSome_eq_some h
      dsimp only at hk
      cases hl2 : litc '월' r3 with
      | none => rw [hl2] at hk; cases hk
      | some r4 =>
        have hw : '월' ∈ r3 := by rw [litc_eq.mp hl2]; exact List.mem_cons_self _ _
        obtain ⟨p2, hd2, _⟩ := monthAlts_decomp hmem
        have hw2 : '월' ∈ r2 := mem_of_decomp hd2 _ hw
        have hw1' : '월' ∈ r1 := by
          rw [litc_eq.mp hl1]; exact List.mem_cons_of_mem _ hw2
        obtain ⟨p1, hd1, _⟩ := take4Digits_decomp h4
        exact mem_of_decomp hd1 _ hw1'

theorem parseSlashKor_none_of_not_wol {l : List Char} (h : '월' ∉ l) :
    parseSlashKor l = none := by
  cases hp : parseSlashKor l with
  | none => rfl
  | some pd =>
    exfalso
    unfold parseSlashKor at hp
    cases hm : matchSlashKor l with
    | none => rw [hm] at hp; cases hp
    | some q =>
      obtain ⟨y, m, d, rest⟩ := q
      exact h (matchSlashKor_wol hm)

theorem matchSlashDay_il {l rest : List Char} {y d : Nat}
    (h : matchSlashDay l = some (y, d, rest)) : '일' ∈ l := by
  unfold matchSlashDay at h
  cases h4 : take4Digits l with
  | none => rw [h4] at h; cases h
  | some p =>
    obtain ⟨y', r1⟩ := p
    rw [h4] at h
    dsimp only at h
    cases hl1 : litc '/' r1 with
    | none => rw [hl1] at h; cases h
    | some r2 =>
      rw [hl1] at h
      dsimp only at h
      obtain ⟨⟨d', r3⟩, hmem, hk⟩ := firstSome_eq_some h
      dsimp only at hk
      cases hl2 : litc '일' r3 with
      | none => rw [hl2] at hk; cases hk
      | some r4 =>
        have hw : '일' ∈ r3 := by rw [litc_eq.mp hl2]; exact List.mem_cons_self _ _
        obtain ⟨p2, hd2, _⟩ := dayAlts_decomp hmem
        have hw2 : '일' ∈ r2 := mem_of_decomp hd2 _ hw
        have hw1' : '일' ∈ r1 := by
          rw [litc_eq.mp hl1]; exact List.mem_cons_of_mem _ hw2
        obtain ⟨p1, hd1, _⟩ := take4Digits_decomp h4
        exact mem_of_decomp hd1 _ hw1'

theorem parseSlashDay_none_of_not_il {l : List Char} (h : '일' ∉ l) :
    parseSlashDay l = none := by
  cases hp : parseSlashDay l with
  | none => rfl
  | some pd =>
    exfalso
    unfold parseSlashDay at hp
    cases hm : matchSlashDay l with
    | none => rw [hm] at hp; cases hp
    | some q =>
      obtain ⟨y, d, rest⟩ := q
      exact h (matchSlashDay_il hm)

theorem pyIntLoop_chars : ∀ (k : Nat) (l : List Char), l.length ≤ k →
    ∀ (acc n : Nat) (tail : List Char), pyIntLoop acc l = some (n, tail) →
    ∀ c ∈ l, c = '_' ∨ isDigitChar c = true ∨ c ∈ tail := by
  intro k
  induction k with
  | zero =>
    intro l hl acc n tail h c hc
    have : l = [] := List.eq_nil_of_length_eq_zero (Nat.le_zero.mp hl)
    subst this; cases hc
  | succ k ih =>
    intro l hl acc n tail h c hc
    cases l with
    | nil => cases hc
    | cons a rest =>
      rw [pyIntLoop.eq_def] at h
      dsimp only at h
      by_cases ha : a = '_'
      · rw [if_pos ha] at h
        cases rest with
        | nil => dsimp only at h; cases h
        | cons c2 rest2 =>
          dsimp only at h
          by_cases hd : isDigitChar c2
          · rw [if_pos hd] at h
            rcases List.mem_cons.mp hc with rfl | hc'
            · exact Or.inl ha
            · rcases List.mem_cons.mp hc' with rfl | hc''
              · exact Or.inr (Or.inl hd)
              · have hlen : rest2.length ≤ k := by
                  simp only [List.length_cons] at hl; omega
                exact ih rest2 hlen _ n tail h c hc''
          · rw [if_neg hd] at h; cases h
      · rw [if_neg ha] at h
        by_cases hd : isDigitChar a
        · rw [if_pos hd] at h
          rcases List.mem_cons.mp hc with rfl | hc'
          · exact Or.inr (Or.inl hd)
          · have hlen : rest.length ≤ k := by
              simp only [List.length_cons] at hl; omega
            exact ih rest hlen _ n tail h c hc'
        · rw [if_neg hd] at h
          injection h with h'
          have htail : a :: rest = tail := congrArg Prod.snd h'
          exact Or.inr (Or.inr (htail ▸ hc))

theorem pySign_cases (l : List Char) :
    pySign l = (false, l) ∨
    (∃ s r, l = s :: r ∧ (s = '+' ∨ s = '-') ∧ (pySign l).2 = r) := by
  cases l with
  | nil => left; rfl
  | cons c r =>
    by_cases hp : c = '+'
    · right
      refine ⟨c, r, rfl, Or.inl hp, ?_⟩
      simp only [pySign]
      rw [if_pos hp]
    · by_cases hm : c = '-'
      · right
        refine ⟨c, r, rfl, Or.inr hm, ?_⟩
        simp only [pySign]
        rw [if_neg hp, if_pos hm]
      · left
        simp only [pySign]
        rw [if_neg hp, if_neg hm]

theorem pyIntDigits_chars {neg : Bool} {l2 : List Char} {n : Int}
    (h : pyIntDigits neg l2 = some n) :
    ∀ x ∈ l2, pyIsSpace x = true ∨ x = '_' ∨ isDigitChar x = true := by
  intro x hx
  cases l2 with
  | nil => cases hx
  | cons cf rest =>
    simp only [pyIntDigits] at h
    by_cases hdf : isDigitChar cf
    · rw [if_pos hdf] at h
      cases hloop : pyIntLoop (dval cf) rest with
      | none => rw [hloop] at h; cases h
      | some p =>
        obtain ⟨nn, tail⟩ := p
        rw [hloop] at h
        dsimp only at h
        split at h
        · rename_i htail
          rcases List.mem_cons.mp hx with rfl | hx'
          · exact Or.inr (Or.inr hdf)
          · rcases pyIntLoop_chars rest.length rest (Nat.le_refl _) _ nn tail
              hloop x hx' with h_ | h_ | h_
            · exact Or.inr (Or.inl h_)
            · exact Or.inr (Or.inr h_)
            · exact Or.inl (mem_of_dropWhile_nil htail x h_)
        · cases h
    · rw [if_neg hdf] at h; cases h

theorem pyInt_chars {l : List Char} {n : Int} (h : pyInt l = some n) :
    ∀ c ∈ l, pyIsSpace c = true ∨ c = '+' ∨ c = '-' ∨ c = '_' ∨
      isDigitChar c = true := by
  intro c hc
  unfold pyInt at h
  rcases mem_dropWhile_or c hc with hsp | hc1
  · exact Or.inl hsp
  rcases pySign_cases (l.dropWhile pyIsSpace) with hs | ⟨s, r, hlr, hsign, hrest⟩
  · have h2 : (pySign (l.dropWhile pyIsSpace)).2 = l.dropWhile pyIsSpace := by
      rw [hs]
    have hx : c ∈ (pySign (l.dropWhile pyIsSpace)).2 := by rw [h2]; exact hc1
    rcases pyIntDigits_chars h c hx with h_ | h_ | h_
    · exact Or.inl h_
    · exact Or.inr (Or.inr (Or.inr (Or.inl h_)))
    · exact Or.inr (Or.inr (Or.inr (Or.inr h_)))
  · rw [hlr] at hc1
    rcases List.mem_cons.mp hc1 with rfl | hc2
    · rcases hsign with rfl | rfl
      · exact Or.inr (Or.inl rfl)
      · exact Or.inr (Or.inr (Or.inl rfl))
    · have hx : c ∈ (pySign (l.dropWhile pyIsSpace)).2 := by rw [hrest]; exact hc2
      rcases pyIntDigits_chars h c hx with h_ | h_ | h_
      · exact Or.inl h_
      · exact Or.inr (Or.inr (Or.inr (Or.inl h_)))
      · exact Or.inr (Or.inr (Or.inr (Or.inr h_)))

theorem firstSome_none {α β : Type} {as : List α} {k : α → Option β}
    (h : ∀ a ∈ as, k a = none) : firstSome as k = none := by
  induction as with
  | nil => rfl
  | cons a as ih =>
    simp only [firstSome]
    rw [h a (List.mem_cons_self _ _)]
    exact ih (fun x hx => h x (List.mem_cons_of_mem _ hx))

theorem pyIsSpace_toNat_le {c : Char} (h : pyIsSpace c = true) : c.toNat ≤ 32 := by
  simp only [pyIsSpace, Bool.or_eq_true, decide_eq_true_eq] at h
  rcases h with ((((h | h) | h) | h) | h) | h
  · subst h; decide
  · subst h; decide
  · subst h; decide
  · subst h; decide
  · omega
  · omega

theorem digit_not_space {c : Char} (hd : isDigitChar c = true) :
    pyIsSpace c = false := by
  cases hsp : pyIsSpace c
  · rfl
  · exfalso
    have h1 := pyIsSpace_toNat_le hsp
    simp only [isDigitChar, Bool.and_eq_true, decide_eq_true_eq] at hd
    omega

theorem wol_not_mem_yearNyeon (now : NowInfo) : '월' ∉ yearNyeon now := by
  intro h
  rcases List.mem_append.mp h with h | h
  · have := natToDec_digits now.year '월' h
    exact absurd this (by decide)
  · exact absurd h (by decide)

theorem il_not_mem_yearNyeon (now : NowInfo) : '일' ∉ yearNyeon now := by
  intro h
  rcases List.mem_append.mp h with h | h
  · have := natToDec_digits now.year '일' h
    exact absurd this (by decide)
  · exact absurd h (by decide)

theorem wol_not_mem_yearSlash (now : NowInfo) : '월' ∉ yearSlash now := by
  intro h
  rcases List.mem_append.mp h with h | h
  · have := natToDec_digits now.year '월' h
    exact absurd this (by decide)
  · exact absurd h (by decide)

theorem il_not_mem_yearSlash (now : NowInfo) : '일' ∉ yearSlash now := by
  intro h
  rcases List.mem_append.mp h with h | h
  · have := natToDec_digits now.year '일' h
    exact absurd this (by decide)
  · exact absurd h (by decide)

/-- Evaluation helpers (definitional equations). -/
theorem take4Digits_cons (a b c d : Char) (r : List Char) :
    take4Digits (a :: b :: c :: d :: r) =
      if isDigitChar a && isDigitChar b && isDigitChar c && isDigitChar d then
        some (1000 * dval a + 100 * dval b + 10 * dval c + dval d, r)
      else none := rfl

theorem litc_cons (x c : Char) (r : List Char) :
    litc x (c :: r) = if c = x then some r else none := rfl

theorem wsPlus_cons (c : Char) (r : List Char) :
    wsPlus (c :: r) = if pyIsSpace c then some (r.dropWhile pyIsSpace) else none := rfl

/-- A failed `%Y년 %m월 %d일` attempt mutates `deadline_str` by prepending
the year and 년 again; the re-prefixed string can never parse: either the
year rendering is not exactly four digits (so `%Y` fails), or after
`%Y년 ` the `%m` alternatives are followed by a digit where the literal
`'월'` is required. -/
theorem matchKorean_double_none (now : NowInfo) (t : List Char) :
    matchKorean (yearNyeon now ++ (yearNyeon now ++ t)) = none := by
  have hd := natToDec_digits now.year
  unfold yearNyeon
  match hrep : natToDec now.year with
  | [] =>
    unfold matchKorean
    simp only [List.cons_append, List.nil_append]
    rfl
  | [a] =>
    unfold matchKorean
    simp only [List.cons_append, List.nil_append]
    rw [take4Digits_cons, if_neg]
    intro hcon
    simp only [Bool.and_eq_true] at hcon
    exact absurd hcon.1.1.2 (by decide)
  | [a, b] =>
    unfold matchKorean
    simp only [List.cons_append, List.nil_append]
    rw [take4Digits_cons, if_neg]
    intro hcon
    simp only [Bool.and_eq_true] at hcon
    exact absurd hcon.1.2 (by decide)
  | [a, b, c] =>
    unfold matchKorean
    simp only [List.cons_append, List.nil_append]
    rw [take4Digits_cons, if_neg]
    intro hcon
    simp only [Bool.and_eq_true] at hcon
    exact absurd hcon.2 (by decide)
  | [a, b, c, d] =>
    have ha := hd a (by rw [hrep]; simp)
    have hb := hd b (by rw [hrep]; simp)
    have hc := hd c (by rw [hrep]; simp)
    have hd4 := hd d (by rw [hrep]; simp)
    unfold matchKorean
    simp only [List.cons_append, List.nil_append]
    rw [take4Digits_cons, if_pos (by rw [ha, hb, hc, hd4]; rfl)]
    dsimp only
    rw [litc_cons, if_pos rfl]
    dsimp only
    rw [wsPlus_cons, if_pos (by decide)]
    rw [List.dropWhile_cons, if_neg (by rw [digit_not_space ha]; simp)]
    dsimp only
    apply firstSome_none
    intro p hp
    rcases monthAlts_mem hp with ⟨x, y, rest, hl, hx, hr⟩ | ⟨x, y, hl, hx, hy⟩ |
      ⟨x, hl, hx, hr⟩
    · -- one digit consumed: the remainder starts with `b`, a digit
      have hp2 : p.2 = b :: c :: d :: '년' :: ' ' :: t := by
        rw [hr]
        injection hl with h1 h2
        injection h2 with h2a h2b
        rw [h2a, h2b]
      rw [hp2]
      rw [litc_cons, if_neg (digit_ne hb (Or.inl (by decide)))]
    · -- two digits consumed: the remainder starts with `c`, a digit
      have hp2 : p.2 = c :: d :: '년' :: ' ' :: t := by
        injection hl with h1 h2
        injection h2 with h2a h2b
        exact h2b.symm
      rw [hp2]
      rw [litc_cons, if_neg (digit_ne hc (Or.inl (by decide)))]
    · -- one digit consumed with empty remainder: impossible
      exfalso
      rw [hr] at hl
      injection hl with h1 h2
      cases h2
  | a :: b :: c :: d :: e :: tl =>
    have ha := hd a (by rw [hrep]; simp)
    have hb := hd b (by rw [hrep]; simp)
    have hc := hd c (by rw [hrep]; simp)
    have hd4 := hd d (by rw [hrep]; simp)
    have he := hd e (by rw [hrep]; simp)
    unfold matchKorean
    simp only [List.cons_append, List.nil_append]
    rw [take4Digits_cons]
    by_cases hdig : isDigitChar a && isDigitChar b && isDigitChar c && isDigitChar d
    · rw [if_pos hdig]
      dsimp only
      rw [litc_cons, if_neg (digit_ne he (Or.inl (by decide)))]
    · rw [if_neg hdig]

/-- The re-prefixed parse failure, at the `parseKorean` level. -/
theorem parseKorean_double_none (now : NowInfo) (t : List Char) :
    parseKorean (yearNyeon now ++ (yearNyeon now ++ t)) = none := by
  unfold parseKorean
  rw [matchKorean_double_none]

theorem pyInt_none_of_mem {l : List Char} {c0 : Char} (hm : c0 ∈ l)
    (h : ¬(pyIsSpace c0 = true ∨ c0 = '+' ∨ c0 = '-' ∨ c0 = '_' ∨
      isDigitChar c0 = true)) : pyInt l = none := by
  cases hp : pyInt l with
  | none => rfl
  | some n => exact absurd (pyInt_chars hp c0 hm) h

theorem tryRelativeSpec_none_of_wol {now : NowInfo} {s : List Char}
    (hw : '월' ∈ s) : tryRelativeSpec now s = none := by
  unfold tryRelativeSpec
  by_cases hil : hasChar '일' s
  · rw [if_pos hil]
    have hmem : '월' ∈ s.filter (fun c => c ≠ '일') :=
      List.mem_filter.mpr ⟨hw, by decide⟩
    rw [pyInt_none_of_mem hmem (by decide)]
  · rw [if_neg hil]

/-! Definitional-equation helpers for the loop model. -/

theorem runFmts_nil (now : NowInfo) (s : List Char) :
    runFmts now [] s = .fromNow 7 := rfl

theorem runFmts_cons (now : NowInfo) (f : Fmt) (fs : List Fmt) (s : List Char) :
    runFmts now (f :: fs) s =
      match tryFmt now f s with
      | .done d => d
      | .overflow => .fromNow 7
      | .cont s' => runFmts now fs s' := rfl

theorem tryFmt_iso (now : NowInfo) (s : List Char) :
    tryFmt now .iso s =
      match parseISO s with
      | some d => .done (.onDate d)
      | none => .cont s := rfl

theorem tryFmt_mdSlash (now : NowInfo) (s : List Char) :
    tryFmt now .mdSlash s =
      if hasChar '월' s then
        match parseKorean (yearNyeon now ++ s) with
        | some d => StepRes.done (.onDate d)
        | none => StepRes.cont (yearNyeon now ++ s)
      else if hasChar '일' s then
        match pyInt (s.filter (fun c => c ≠ '일')) with
        | some n => if inAddRange now n then StepRes.done (.fromNow n) else .overflow
        | none => StepRes.cont s
      else
        match parseSlashMD (yearSlash now ++ s) with
        | some d => StepRes.done (.onDate d)
        | none => StepRes.cont s := rfl

theorem tryFmt_kor (now : NowInfo) (s : List Char) :
    tryFmt now .kor s =
      if hasChar '월' s then
        match parseKorean (yearNyeon now ++ s) with
        | some d => StepRes.done (.onDate d)
        | none => StepRes.cont (yearNyeon now ++ s)
      else if hasChar '일' s then
        match pyInt (s.filter (fun c => c ≠ '일')) with
        | some n => if inAddRange now n then StepRes.done (.fromNow n) else .overflow
        | none => StepRes.cont s
      else
        match parseSlashKor (yearSlash now ++ s) with
        | some d => StepRes.done (.onDate d)
        | none => StepRes.cont s := rfl

theorem tryFmt_dayK (now : NowInfo) (s : List Char) :
    tryFmt now .dayK s =
      if hasChar '월' s then
        match parseKorean (yearNyeon now ++ s) with
        | some d => StepRes.done (.onDate d)
        | none => StepRes.cont (yearNyeon now ++ s)
      else if hasChar '일' s then
        match pyInt (s.filter (fun c => c ≠ '일')) with
        | some n => if inAddRange now n then StepRes.done (.fromNow n) else .overflow
        | none => StepRes.cont s
      else
        match parseSlashDay (yearSlash now ++ s) with
        | some d => StepRes.done (.onDate d)
        | none => StepRes.cont s := rfl

/-- The loop of `create_ics_event` computes exactly the §4.4 spec-order
resolution. -/
theorem resolveDeadline_eq_spec (now : NowInfo) (s : List Char) :
    resolveDeadline now s = resolveDeadlineSpec now s := by
  unfold resolveDeadline resolveDeadlineSpec
  cases hiso : parseISO s with
  | some d =>
    rw [runFmts_cons, tryFmt_iso, hiso]
    unfold tryISOSpec
    rw [hiso]
    rfl
  | none =>
    rw [runFmts_cons, tryFmt_iso, hiso]
    dsimp only
    unfold tryISOSpec
    rw [hiso]
    dsimp only [Option.map_none']
    by_cases hwol : hasChar '월' s
    · -- the '월' branch of the loop body
      have hwmem : '월' ∈ s := hasChar_iff.mp hwol
      rw [tryRelativeSpec_none_of_wol hwmem]
      rw [runFmts_cons, tryFmt_mdSlash, if_pos hwol]
      unfold tryMonthDaySpec
      cases hkor : parseKorean (yearNyeon now ++ s) with
      | some d => rfl
      | none =>
        dsimp only [Option.map_none']
        have hwol' : hasChar '월' (yearNyeon now ++ s) :=
          hasChar_iff.mpr (List.mem_append_right _ hwmem)
        rw [runFmts_cons, tryFmt_kor, if_pos hwol',
          parseKorean_double_none now s]
        dsimp only
        have hwol'' : hasChar '월' (yearNyeon now ++ (yearNyeon now ++ s)) :=
          hasChar_iff.mpr
            (List.mem_append_right _ (List.mem_append_right _ hwmem))
        rw [runFmts_cons, tryFmt_dayK, if_pos hwol'',
          parseKorean_double_none now (yearNyeon now ++ s)]
        dsimp only
        rw [runFmts_nil]
        unfold tryMMDDSpec
        rw [parseSlashMD_none_of_mem
          (List.mem_append_right _ hwmem) (by decide) (by decide)]
        rfl
    · -- no '월' in the string
      have hwmem : '월' ∉ s := fun h => hwol (hasChar_iff.mpr h)
      have hkornone : parseKorean (yearNyeon now ++ s) = none := by
        apply parseKorean_none_of_not_wol
        intro h
        rcases List.mem_append.mp h with h | h
        · exact wol_not_mem_yearNyeon now h
        · exact hwmem h
      by_cases hil : hasChar '일' s
      · -- the relative-day branch of the loop body
        have hilmem : '일' ∈ s := hasChar_iff.mp hil
        have hmdnone : parseSlashMD (yearSlash now ++ s) = none :=
          parseSlashMD_none_of_mem
            (List.mem_append_right _ hilmem) (by decide) (by decide)
        unfold tryRelativeSpec
        rw [if_pos hil]
        rw [runFmts_cons, tryFmt_mdSlash, if_neg hwol, if_pos hil]
        cases hpy : pyInt (s.filter (fun c => c ≠ '일')) with
        | some n =>
          dsimp only
          by_cases hrange : inAddRange now n
          · rw [if_pos hrange, if_pos hrange]
          · rw [if_neg hrange, if_neg hrange]
            unfold tryMonthDaySpec tryMMDDSpec
            rw [hkornone, hmdnone]
            rfl
        | none =>
          dsimp only
          rw [runFmts_cons, tryFmt_kor, if_neg hwol, if_pos hil, hpy]
          dsimp only
          rw [runFmts_cons, tryFmt_dayK, if_neg hwol, if_pos hil, hpy]
          dsimp only
          rw [runFmts_nil]
          unfold tryMonthDaySpec tryMMDDSpec
          rw [hkornone, hmdnone]
          rfl
      · -- neither 월 nor 일: the slash-joined branch
        have hilmem : '일' ∉ s := fun h => hil (hasChar_iff.mpr h)
        unfold tryRelativeSpec
        rw [if_neg hil]
        unfold tryMonthDaySpec
        rw [hkornone]
        dsimp only [Option.map_none']
        unfold tryMMDDSpec
        rw [runFmts_cons, tryFmt_mdSlash, if_neg hwol, if_neg hil]
        cases hmd : parseSlashMD (yearSlash now ++ s) with
        | some d => rfl
        | none =>
          dsimp only [Option.map_none']
          have hskor : parseSlashKor (yearSlash now ++ s) = none := by
            apply parseSlashKor_none_of_not_wol
            intro h
            rcases List.mem_append.mp h with h | h
            · exact wol_not_mem_yearSlash now h
            · exact hwmem h
          have hsday : parseSlashDay (yearSlash now ++ s) = none := by
            apply parseSlashDay_none_of_not_il
            intro h
            rcases List.mem_append.mp h with h | h
            · exact il_not_mem_yearSlash now h
            · exact hilmem h
          rw [runFmts_cons, tryFmt_kor, if_neg hwol, if_neg hil, hskor]
          dsimp only
          rw [runFmts_cons, tryFmt_dayK, if_neg hwol, if_neg hil, hsday]
          rfl

/-! ### Fenced-block extraction lemmas -/

theorem isPfx_iff {p l : List Char} : isPfx p l = true ↔ ∃ t, l = p ++ t := by
  induction p generalizing l with
  | nil =>
    simp only [isPfx, List.nil_append]
    exact ⟨fun _ => ⟨l, rfl⟩, fun _ => trivial⟩
  | cons a as ih =>
    cases l with
    | nil =>
      simp only [isPfx]
      constructor
      · intro h; cases h
      · rintro ⟨t, ht⟩; cases ht
    | cons b bs =>
      simp only [isPfx, Bool.and_eq_true, beq_iff_eq]
      constructor
      · rintro ⟨rfl, h⟩
        rcases ih.mp h with ⟨t, rfl⟩
        exact ⟨t, rfl⟩
      · rintro ⟨t, ht⟩
        injection ht with h1 h2
        exact ⟨h1.symm, ih.mpr ⟨t, h2⟩⟩

theorem isPfx_of_pfx {p l : List Char} (h : p <+: l) : isPfx p l = true := by
  rcases h with ⟨t, ht⟩
  exact isPfx_iff.mpr ⟨t, ht.symm⟩

theorem occursIn_of_isPfx {pat l : List Char} (h : isPfx pat l = true) :
    occursIn pat l = true := by
  cases l with
  | nil =>
    cases pat with
    | nil => rfl
    | cons p ps => cases h
  | cons c rest =>
    simp only [occursIn, Bool.or_eq_true]
    exact Or.inl h

theorem splitOnFirst_sound {pat l b a : List Char}
    (h : splitOnFirst pat l = some (b, a)) : l = b ++ pat ++ a := by
  induction l generalizing b with
  | nil => cases h
  | cons c rest ih =>
    simp only [splitOnFirst] at h
    split at h
    · rename_i hpfx
      injection h with h'
      injection h' with h1 h2
      subst h1
      rcases isPfx_iff.mp hpfx with ⟨t, ht⟩
      rw [ht, List.drop_left] at h2
      rw [List.nil_append, ht, h2]
    · rename_i hpfx
      cases hrec : splitOnFirst pat rest with
      | none => rw [hrec] at h; cases h
      | some p =>
        obtain ⟨b', a'⟩ := p
        rw [hrec] at h
        injection h with h'
        injection h' with h1 h2
        subst h2
        rw [← h1]
        have := ih hrec
        rw [List.cons_append, List.cons_append, this]

theorem occursIn_of_splitOnFirst {pat l : List Char} {p : List Char × List Char}
    (h : splitOnFirst pat l = some p) : occursIn pat l = true := by
  induction l generalizing p with
  | nil => cases h
  | cons c rest ih =>
    simp only [splitOnFirst] at h
    simp only [occursIn, Bool.or_eq_true]
    split at h
    · rename_i hpfx; exact Or.inl hpfx
    · cases hrec : splitOnFirst pat rest with
      | none => rw [hrec] at h; cases h
      | some q => exact Or.inr (ih hrec)

/-- Self-overlap freedom: no proper suffix of `pat` is a prefix of `pat`. -/
def noSelfOverlap (pat : List Char) : Bool :=
  (List.range pat.length).all fun k => k == 0 || !(isPfx (pat.drop k) pat)

theorem splitOnFirst_complete {pat : List Char} (hno : noSelfOverlap pat = true)
    (hpat : pat ≠ []) :
    ∀ {b a : List Char}, occursIn pat b = false →
    splitOnFirst pat (b ++ pat ++ a) = some (b, a) := by
  intro b
  induction b with
  | nil =>
    intro a _
    rw [List.nil_append]
    cases hp : pat with
    | nil => exact absurd hp hpat
    | cons p ps =>
      rw [List.cons_append, splitOnFirst]
      rw [if_pos (by rw [← List.cons_append, ← hp]; exact isPfx_iff.mpr ⟨a, rfl⟩)]
      rw [← List.cons_append, ← hp, List.drop_left]
  | cons c b' ih =>
    intro a hocc
    simp only [occursIn, Bool.or_eq_true] at hocc
    rw [Bool.or_eq_false_iff] at hocc
    have hpfx : isPfx pat (c :: b' ++ pat ++ a) = false := by
      cases hx : isPfx pat (c :: b' ++ pat ++ a)
      · rfl
      · exfalso
        rcases isPfx_iff.mp hx with ⟨t, ht⟩
        by_cases hlen : pat.length ≤ (c :: b').length
        · have hp1 : pat <+: c :: b' ++ pat ++ a := ⟨t, ht.symm⟩
          have hp2 : c :: b' <+: c :: b' ++ pat ++ a := by
            rw [List.append_assoc]; exact List.prefix_append _ _
          have hcontra := isPfx_of_pfx (List.prefix_of_prefix_length_le hp1 hp2 hlen)
          rw [hocc.1] at hcontra
          cases hcontra
        · push_neg at hlen
          have hp2 : c :: b' <+: pat := by
            have hp1 : pat <+: c :: b' ++ pat ++ a := ⟨t, ht.symm⟩
            have hp0 : c :: b' <+: c :: b' ++ pat ++ a := by
              rw [List.append_assoc]; exact List.prefix_append _ _
            exact List.prefix_of_prefix_length_le hp0 hp1 (Nat.le_of_lt hlen)
          rcases hp2 with ⟨d, hd⟩
          have hdrop : pat.drop (c :: b').length = d := by
            rw [← hd, List.drop_left]
          have hda : pat ++ a = d ++ t := by
            have : (c :: b') ++ (pat ++ a) = (c :: b') ++ (d ++ t) := by
              rw [← List.append_assoc, ht, ← hd, List.append_assoc]
            exact List.append_cancel_left this
          have hdp : d <+: pat := by
            have h1 : d <+: pat ++ a := ⟨t, hda.symm⟩
            have h2 : pat <+: pat ++ a := List.prefix_append _ _
            apply List.prefix_of_prefix_length_le h1 h2
            have hdl : d.length + (c :: b').length = pat.length := by
              rw [← hd]; simp only [List.length_append]; omega
            omega
          have hk : isPfx (pat.drop (c :: b').length) pat = true := by
            rw [hdrop]; exact isPfx_of_pfx hdp
          have hrange : (c :: b').length ∈ List.range pat.length :=
            List.mem_range.mpr hlen
          have := (List.all_eq_true.mp hno) _ hrange
          simp only [Bool.or_eq_true, beq_iff_eq, Bool.not_eq_true'] at this
          rcases this with h0 | h0
          · simp at h0
          · rw [hk] at h0; cases h0
    have hpfx' : isPfx pat (c :: (b' ++ (pat ++ a))) = false := by
      simpa only [List.cons_append, List.append_assoc] using hpfx
    rw [splitOnFirst.eq_def]
    simp only [List.cons_append, List.append_assoc]
    rw [if_neg (by rw [hpfx']; simp)]
    have hih := @ih a hocc.2
    rw [List.append_assoc] at hih
    rw [hih]

theorem noSelfOverlap_fence : noSelfOverlap fenceO = true := by decide

theorem noSelfOverlap_close : noSelfOverlap closeO = true := by decide

/-- Soundness of the fenced-block extraction: an extracted block really is
framed as `` ```json\n``…``\n``` `` in the reply. -/
theorem extractBlock_sound {l mid : List Char} (h : extractBlock l = some mid) :
    ∃ pre rest, l = pre ++ fenceO ++ mid ++ closeO ++ rest := by
  unfold extractBlock at h
  cases h1 : splitOnFirst fenceO l with
  | none => rw [h1] at h; cases h
  | some p =>
    obtain ⟨pre, after⟩ := p
    rw [h1] at h
    dsimp only at h
    cases h2 : splitOnFirst closeO after with
    | none => rw [h2] at h; cases h
    | some q =>
      obtain ⟨mid', rest⟩ := q
      rw [h2] at h
      injection h with h'
      subst h'
      refine ⟨pre, rest, ?_⟩
      have e1 := splitOnFirst_sound h1
      have e2 := splitOnFirst_sound h2
      rw [e1, e2]
      simp [List.append_assoc]

/-- Completeness: the first well-framed block is extracted. -/
theorem extractBlock_complete {pre mid rest : List Char}
    (hpre : occursIn fenceO pre = false) (hmid : occursIn closeO mid = false) :
    extractBlock (pre ++ fenceO ++ mid ++ closeO ++ rest) = some mid := by
  unfold extractBlock
  have h1 : splitOnFirst fenceO (pre ++ fenceO ++ (mid ++ closeO ++ rest)) =
      some (pre, mid ++ closeO ++ rest) :=
    splitOnFirst_complete noSelfOverlap_fence (by decide) hpre
  have harr : pre ++ fenceO ++ mid ++ closeO ++ rest =
      pre ++ fenceO ++ (mid ++ closeO ++ rest) := by
    simp [List.append_assoc]
  rw [harr, h1]
  dsimp only
  rw [splitOnFirst_complete noSelfOverlap_close (by decide) hmid]

/-- When no fence occurs, nothing is extracted. -/
theorem extractBlock_none {l : List Char} (h : occursIn fenceO l = false) :
    extractBlock l = none := by
  unfold extractBlock
  cases h1 : splitOnFirst fenceO l with
  | none => rfl
  | some p => rw [occursIn_of_splitOnFirst h1] at h; cases h

/-- The repairer as extraction followed by parse-or-degrade. -/
theorem repairReply_eq (t : List Char) :
    repairReply t =
      match jsonLoads ((extractBlock t).getD t) with
      | some v => v
      | none => fallbackResult t := rfl

/-! ### Body-assembly lemmas -/

theorem assembleFrom_no_html {parts : List MimePart}
    (h : hasHtml parts = false) (body : List Char) :
    assembleFrom body parts = body ++ (plainContents parts).flatten := by
  induction parts generalizing body with
  | nil => simp [assembleFrom, plainContents]
  | cons p rest ih =>
    cases p with
    | plain c =>
      simp only [assembleFrom, plainContents, List.flatten_cons]
      rw [ih (by simpa [hasHtml] using h), List.append_assoc]
    | html c => simp [hasHtml] at h
    | other =>
      simp only [assembleFrom, plainContents]
      exact ih (by simpa [hasHtml] using h) body

theorem assembleFrom_no_plain {parts : List MimePart}
    (h : hasPlain parts = false) (body : List Char) :
    assembleFrom body parts =
      if body.isEmpty then firstNonempty ((htmlContents parts).map stripTags)
      else body := by
  induction parts generalizing body with
  | nil =>
    simp only [assembleFrom, htmlContents, List.map_nil, firstNonempty]
    cases body with
    | nil => rfl
    | cons c cs => rfl
  | cons p rest ih =>
    cases p with
    | plain c => simp [hasPlain] at h
    | html c =>
      simp only [assembleFrom, htmlContents, List.map_cons]
      by_cases hb : body.isEmpty
      · rw [if_pos hb, ih (by simpa [hasPlain] using h)]
        simp only [firstNonempty]
        rw [if_pos hb]
      · rw [if_neg hb, ih (by simpa [hasPlain] using h), if_neg hb, if_neg hb]
    | other =>
      simp only [assembleFrom, htmlContents]
      exact ih (by simpa [hasPlain] using h) body

/-! ### Calendar-zip lemmas -/

theorem create_ics_event_uid (now : NowInfo) (t : PyTask) (subject : List Char) :
    (create_ics_event now t subject).uid = "email-task-".data ++ now.stamp := rfl

theorem create_ics_event_no_deadline {t : PyTask} (h : deadlineGiven t = false)
    (now : NowInfo) (subject : List Char) :
    (create_ics_event now t subject).dtstart = .fromNow 7 := by
  unfold create_ics_event
  cases hdl : t.deadline with
  | none => rfl
  | some s =>
    unfold deadlineGiven at h
    rw [hdl] at h
    dsimp only at h
    dsimp only
    rw [if_neg (by rw [h]; simp)]

theorem calendarZipFrom_length (clock : Nat → NowInfo) (subject : List Char)
    (k : Nat) (ts : List PyTask) :
    (calendarZipFrom clock subject k ts).length = ts.length := by
  induction ts generalizing k with
  | nil => rfl
  | cons t ts ih => simp [calendarZipFrom, ih]

theorem calendarZipFrom_mem_uid {clock : Nat → NowInfo} {subject : List Char}
    {k : Nat} {ts : List PyTask} {e : ZipEntry}
    (h : e ∈ calendarZipFrom clock subject k ts) :
    ∃ j, k ≤ j ∧ e.event.uid = "email-task-".data ++ (clock j).stamp := by
  induction ts generalizing k with
  | nil => cases h
  | cons t ts ih =>
    simp only [calendarZipFrom] at h
    rcases List.mem_cons.mp h with rfl | h'
    · exact ⟨k, Nat.le_refl _, rfl⟩
    · rcases ih h' with ⟨j, hj, he⟩
      exact ⟨j, by omega, he⟩

theorem calendarZipFrom_uids_distinct (clock : Nat → NowInfo)
    (subject : List Char)
    (hc : ∀ i j, i ≠ j → (clock i).stamp ≠ (clock j).stamp) :
    ∀ (k : Nat) (ts : List PyTask),
    (calendarZipFrom clock subject k ts).Pairwise
      (fun e1 e2 => e1.event.uid ≠ e2.event.uid) := by
  intro k ts
  induction ts generalizing k with
  | nil => exact List.Pairwise.nil
  | cons t ts ih =>
    simp only [calendarZipFrom]
    refine List.Pairwise.cons ?_ (ih (k + 1))
    intro e he
    rcases calendarZipFrom_mem_uid he with ⟨j, hj, huid⟩
    simp only [create_ics_event_uid, huid]
    intro hcon
    have hstamp := List.append_cancel_left hcon
    exact hc k j (by omega) hstamp

/-! ## Claims -/

/-- C1 (counterexample): a task whose `deadline` is `None` still gets a
calendar event — `create_calendar_zip` produces one archive member for it
and `create_ics_event` gives it the same `now + 7 days` fallback date as
the unresolved case, refuting "no calendar event is generated". -/
theorem C1_null_deadline_counterexample :
    (create_calendar_zip cstClock [exTaskNoDeadline] []).length = 1 ∧
    (create_ics_event exNow exTaskNoDeadline []).dtstart = Due.fromNow 7 := by
  exact ⟨rfl, rfl⟩

/-- C1 (amended): for every task whose deadline field is null, empty, or
the sentinel string `null`, the calendar encoder still generates an
event for that task, with `DTSTART` set to the `now + 7 days` fallback —
the same value as the unresolved case; the batch export emits exactly one
member per task. -/
theorem C1_null_deadline_fallback_event :
    (∀ (now : NowInfo) (t : PyTask) (subject : List Char),
      deadlineGiven t = false →
      (create_ics_event now t subject).dtstart = Due.fromNow 7) ∧
    (∀ (clock : Nat → NowInfo) (tasks : List PyTask) (subject : List Char),
      (create_calendar_zip clock tasks subject).length = tasks.length) := by
  constructor
  · intro now t subject h
    exact create_ics_event_no_deadline h now subject
  · intro clock tasks subject
    exact calendarZipFrom_length clock subject 1 tasks

/-- C1 (witness): the amended theorem applied to a concrete `None`-deadline
task. -/
theorem C1_null_deadline_fallback_event_witness :
    deadlineGiven exTaskNoDeadline = false ∧
    (create_ics_event exNow exTaskNoDeadline []).dtstart = Due.fromNow 7 :=
  ⟨by decide, C1_null_deadline_fallback_event.1 exNow exTaskNoDeadline [] (by decide)⟩

/-- C2 (counterexample): the reply `{}` parses successfully as the
structured schema, yet the returned result has no `sentiment` or
`urgency_level` field at all — missing optional fields are not filled in
on the success path. -/
theorem C2_defaults_counterexample :
    jsonLoads ((extractBlock emptyObjReply).getD emptyObjReply) =
      some (JVal.jobj []) ∧
    repairReply emptyObjReply = JVal.jobj [] ∧
    jget "sentiment".data (repairReply emptyObjReply) = none ∧
    jget "urgency_level".data (repairReply emptyObjReply) = none := by
  exact ⟨rfl, rfl, rfl, rfl⟩

/-- C2 (amended): on a successful parse the parsed object is returned
unchanged — missing optional fields stay absent from the returned value;
the documented defaults (`neutral`, `medium`) are supplied at each point
of use instead, as in the Excel summary cells. -/
theorem C2_defaults_at_read_sites :
    (∀ (t : List Char) (v : JVal),
      jsonLoads ((extractBlock t).getD t) = some v → repairReply t = v) ∧
    (∀ fields, jgetL "sentiment".data fields = none →
      excelSentimentCell fields = JVal.jstr "neutral".data) ∧
    (∀ fields, jgetL "urgency_level".data fields = none →
      excelUrgencyCell fields = JVal.jstr "medium".data) := by
  refine ⟨?_, ?_, ?_⟩
  · intro t v h
    rw [repairReply_eq, h]
  · intro fields h
    unfold excelSentimentCell
    rw [h]
    rfl
  · intro fields h
    unfold excelUrgencyCell
    rw [h]
    rfl

/-- C2 (witness): the amended theorem applied to the `{}` reply and the
empty field list. -/
theorem C2_defaults_at_read_sites_witness :
    repairReply emptyObjReply = JVal.jobj [] ∧
    excelSentimentCell [] = JVal.jstr "neutral".data ∧
    excelUrgencyCell [] = JVal.jstr "medium".data :=
  ⟨C2_defaults_at_read_sites.1 emptyObjReply (JVal.jobj []) rfl,
   C2_defaults_at_read_sites.2.1 [] rfl,
   C2_defaults_at_read_sites.2.2 [] rfl⟩

/-- C3 (counterexample): on an unparsable reply the degraded
result field `key_points` is not the empty list — it holds the canned diagnostic entry
`"원시 응답을 확인하세요."`, refuting "empty ... key-point ... lists". -/
theorem C3_degraded_counterexample :
    jsonLoads ((extractBlock badReply).getD badReply) = none ∧
    jget "key_points".data (repairReply badReply) =
      some (JVal.jarr [JVal.jstr "원시 응답을 확인하세요.".data]) ∧
    jget "key_points".data (repairReply badReply) ≠ some (JVal.jarr []) := by
  refine ⟨rfl, rfl, ?_⟩
  intro hcon
  have h1 := Option.some.inj hcon
  injection h1 with h2
  cases h2

/-- C3 (amended): for every reply whose JSON parse fails, the repairer
returns the fixed degraded result — canned summary and follow-up strings,
empty task and action-item lists, a single canned diagnostic key-point
entry, neutral sentiment, medium urgency — with `raw_response` equal to
the reply text exactly; the path is a total function (never raises). -/
theorem C3_degraded_result :
    ∀ t : List Char, jsonLoads ((extractBlock t).getD t) = none →
    repairReply t = fallbackResult t ∧
    jget "raw_response".data (repairReply t) = some (JVal.jstr t) ∧
    jget "tasks".data (repairReply t) = some (JVal.jarr []) ∧
    jget "action_items".data (repairReply t) = some (JVal.jarr []) ∧
    jget "key_points".data (repairReply t) =
      some (JVal.jarr [JVal.jstr "원시 응답을 확인하세요.".data]) ∧
    jget "sentiment".data (repairReply t) = some (JVal.jstr "neutral".data) ∧
    jget "urgency_level".data (repairReply t) = some (JVal.jstr "medium".data) ∧
    jget "summary".data (repairReply t) =
      some (JVal.jstr "분석 결과를 파싱하는 중 오류가 발생했습니다.".data) ∧
    jget "follow_up".data (repairReply t) =
      some (JVal.jstr "다시 시도해주세요.".data) := by
  intro t h
  have hr : repairReply t = fallbackResult t := by
    rw [repairReply_eq, h]
  refine ⟨hr, ?_, ?_, ?_, ?_, ?_, ?_, ?_, ?_⟩ <;> rw [hr] <;> rfl

/-- C3 (witness): the amended theorem applied to a concrete unparsable
reply. -/
theorem C3_degraded_result_witness :
    jsonLoads ((extractBlock badReply2).getD badReply2) = none ∧
    jget "raw_response".data (repairReply badReply2) =
      some (JVal.jstr badReply2) :=
  ⟨rfl, (C3_degraded_result badReply2 rfl).2.1⟩

/-- C4: the deadline loop of `create_ics_event` computes exactly the
spec-order resolution — ISO `YYYY-MM-DD` first, then the localized N-day
phrase (resolution-instant + N days), then the localized month-day phrase
in the current year, then `MM/DD` in the current year, first match wins —
and every unmatched string gets the `now + 7 days` fallback; both sides
are total functions, so resolution never raises. -/
theorem C4_resolution_grammar_order :
    ∀ (now : NowInfo) (s : List Char),
    resolveDeadline now s = resolveDeadlineSpec now s := by
  intro now s
  exact resolveDeadline_eq_spec now s

/-- C5: an unconfigured client fails with the configuration exception
regardless of what the external call would have produced (so before any
request is consumed); a failed call yields the error outcome with no
partial result; and every successful call yields a structurally repaired
result value — reply-shape problems never escape as failures. -/
theorem C5_error_propagation :
    (∀ call : Except Unit (List Char),
      analyze_email false call = AnalyzeOutcome.notConfigured) ∧
    (∀ e : Unit, analyze_email true (.error e) = AnalyzeOutcome.transportFailed) ∧
    (∀ content : List Char,
      analyze_email true (.ok content) =
        AnalyzeOutcome.ok (repairReply (pyStrip content))) := by
  exact ⟨fun _ => rfl, fun _ => rfl, fun _ => rfl⟩

/-- C6 (counterexample): the bare expression `"5"` matches none of the
grammar rules — it resolves to the `now + 7 days` fallback, not to
`now + 5 days`. -/
theorem C6_bare_five_counterexample :
    resolveDeadline exNow "5".data = Due.fromNow 7 ∧
    Due.fromNow 7 ≠ Due.fromNow 5 := by
  exact ⟨by decide, by decide⟩

/-- C6 (amended): the localized five-day phrase `"5일"` resolves to
resolution-instant + 5 days (whenever that instant is representable);
the bare string `"5"` instead falls to the `+7 days` fallback. -/
theorem C6_relative_five_days :
    ∀ now : NowInfo, inAddRange now 5 = true →
    resolveDeadline now "5일".data = Due.fromNow 5 := by
  intro now hrange
  unfold resolveDeadline
  rw [runFmts_cons, tryFmt_iso]
  rw [show parseISO "5일".data = none from rfl]
  dsimp only
  rw [runFmts_cons, tryFmt_mdSlash]
  rw [if_neg (by decide), if_pos (by decide)]
  rw [show pyInt ("5일".data.filter (fun c => c ≠ '일')) = some 5 from by decide]
  dsimp only
  rw [if_pos hrange]

/-- C6 (witness): the amended theorem at the example instant. -/
theorem C6_relative_five_days_witness :
    inAddRange exNow 5 = true ∧
    resolveDeadline exNow "5일".data = Due.fromNow 5 :=
  ⟨by decide, C6_relative_five_days exNow (by decide)⟩

/-- C7: when the reply contains a well-framed fenced `json` block, only
the content of that first block is parsed (everything after its closing fence,
including further blocks, is ignored except as `raw_response` input on
failure); when no fence is present the entire reply text is parsed
directly. -/
theorem C7_first_block_parsed :
    (∀ pre mid rest : List Char,
      occursIn fenceO pre = false → occursIn closeO mid = false →
      repairReply (pre ++ fenceO ++ mid ++ closeO ++ rest) =
        match jsonLoads mid with
        | some v => v
        | none => fallbackResult (pre ++ fenceO ++ mid ++ closeO ++ rest)) ∧
    (∀ t : List Char, occursIn fenceO t = false →
      repairReply t =
        match jsonLoads t with
        | some v => v
        | none => fallbackResult t) := by
  constructor
  · intro pre mid rest hpre hmid
    rw [repairReply_eq, extractBlock_complete hpre hmid]
    rfl
  · intro t h
    rw [repairReply_eq, extractBlock_none h]
    rfl

/-- C7 (witness): a reply with two fenced blocks parses only the first
(here `\x7b\x7d`), and a fence-free reply is parsed whole. -/
theorem C7_first_block_parsed_witness :
    repairReply ("서두 ".data ++ fenceO ++ emptyObjReply ++ closeO ++
      " 추가 ```json\ntrue\n```".data) = JVal.jobj [] ∧
    repairReply "null".data = JVal.jnull := by
  constructor
  · rw [C7_first_block_parsed.1 "서두 ".data emptyObjReply
      (" 추가 ```json\ntrue\n```".data) (by decide) (by decide)]
    rfl
  · rw [C7_first_block_parsed.2 "null".data (by decide)]
    rfl

/-- C8 (counterexample): a multipart message with two plain-text parts
gets their concatenation as its body, not the first part alone — the code
appends every plain-text part. -/
theorem C8_first_plain_counterexample :
    (parse_eml_file twoPlainMsg).body = "첫번째두번째".data ∧
    (parse_eml_file twoPlainMsg).body ≠ "첫번째".data := by
  exact ⟨rfl, by decide⟩

/-- C8 (amended): the assembled body concatenates all plain-text parts in
walk order; when no plain-text part exists it is the first HTML part with
a non-empty tag-stripped rendering (tags stripped); and the four headers
each default to the empty string when absent. -/
theorem C8_body_assembly :
    (∀ (m : EmlMsg) (parts : List MimePart), m.content = .multi parts →
      hasHtml parts = false →
      (parse_eml_file m).body = (plainContents parts).flatten) ∧
    (∀ (m : EmlMsg) (parts : List MimePart), m.content = .multi parts →
      hasPlain parts = false →
      (parse_eml_file m).body =
        firstNonempty ((htmlContents parts).map stripTags)) ∧
    (∀ m : EmlMsg,
      (parse_eml_file m).subject = m.subject.getD [] ∧
      (parse_eml_file m).sender = m.sender.getD [] ∧
      (parse_eml_file m).recipients = m.recipients.getD [] ∧
      (parse_eml_file m).date = m.date.getD []) := by
  refine ⟨?_, ?_, ?_⟩
  · intro m parts hcontent hnohtml
    unfold parse_eml_file
    rw [hcontent]
    dsimp only
    unfold assembleBody
    rw [assembleFrom_no_html hnohtml, List.nil_append]
  · intro m parts hcontent hnoplain
    unfold parse_eml_file
    rw [hcontent]
    dsimp only
    unfold assembleBody
    rw [assembleFrom_no_plain hnoplain]
    rfl
  · intro m
    exact ⟨rfl, rfl, rfl, rfl⟩

/-- C8 (witness): the amended theorem at a concrete one-plain-part
message. -/
theorem C8_body_assembly_witness :
    hasHtml [MimePart.other, MimePart.plain "본문".data] = false ∧
    (parse_eml_file onePlainMsg).body = "본문".data := by
  constructor
  · decide
  · rw [C8_body_assembly.1 onePlainMsg [MimePart.other, MimePart.plain "본문".data]
      rfl (by decide)]
    rfl

/-- C9 (counterexample): two tasks exported in the same second (frozen
clock) receive identical UIDs — the batch does not guarantee UID
uniqueness within a run. -/
theorem C9_uid_counterexample :
    ((create_calendar_zip cstClock [taskA, taskB] []).map
      (fun e => e.event.uid)) =
      ["email-task-20251012120000".data, "email-task-20251012120000".data] ∧
    ¬ (create_calendar_zip cstClock [taskA, taskB] []).Pairwise
        (fun e1 e2 => e1.event.uid ≠ e2.event.uid) := by
  constructor
  · rfl
  · intro hp
    rcases hp with _ | ⟨hhead, _⟩
    exact hhead _ (List.mem_cons_self _ _) rfl

/-- C9 (amended): the UID of each event is `email-task-` followed by the
second-resolution creation timestamp; UIDs are pairwise distinct within a
run exactly when the per-call timestamps are pairwise distinct — events
created in the same second share one UID. -/
theorem C9_uid_time_based :
    (∀ (clock : Nat → NowInfo) (subject : List Char) (tasks : List PyTask),
      (∀ i j, i ≠ j → (clock i).stamp ≠ (clock j).stamp) →
      (create_calendar_zip clock tasks subject).Pairwise
        (fun e1 e2 => e1.event.uid ≠ e2.event.uid)) ∧
    (∀ (now : NowInfo) (t : PyTask) (subject : List Char),
      (create_ics_event now t subject).uid = "email-task-".data ++ now.stamp) := by
  constructor
  · intro clock subject tasks hc
    exact calendarZipFrom_uids_distinct clock subject hc 1 tasks
  · intro now t subject
    rfl

/-- C9 (witness): the amended theorem under a clock whose stamps are
pairwise distinct. -/
theorem C9_uid_time_based_witness :
    (create_calendar_zip repClock [taskA, taskB] []).Pairwise
      (fun e1 e2 => e1.event.uid ≠ e2.event.uid) := by
  apply C9_uid_time_based.1 repClock [] [taskA, taskB]
  intro i j hij hstamp
  apply hij
  have := congrArg List.length hstamp
  simpa [repClock] using this

/-- C10: any extracted block is framed exactly as `` ```json `` + LF,
content, LF + `` ``` `` (soundness); fenced blocks with different casing,
CRLF framing, no language tag, or another tag are not recognized, in which
case the whole reply is parsed and, failing that, degrades. -/
theorem C10_exact_fence_framing :
    (∀ t mid : List Char, extractBlock t = some mid →
      ∃ pre rest, t = pre ++ fenceO ++ mid ++ closeO ++ rest) ∧
    extractBlock caseUpper = none ∧ repairReply caseUpper = fallbackResult caseUpper ∧
    extractBlock caseCRLF = none ∧ repairReply caseCRLF = fallbackResult caseCRLF ∧
    extractBlock caseNoTag = none ∧ repairReply caseNoTag = fallbackResult caseNoTag ∧
    extractBlock caseYaml = none ∧ repairReply caseYaml = fallbackResult caseYaml := by
  refine ⟨?_, rfl, rfl, rfl, rfl, rfl, rfl, rfl, rfl⟩
  intro t mid h
  exact extractBlock_sound h

/-- C10 (witness): soundness applied to a concrete well-framed reply. -/
theorem C10_exact_fence_framing_witness :
    ∃ pre rest, caseGood = pre ++ fenceO ++ "null".data ++ closeO ++ rest :=
  C10_exact_fence_framing.1 caseGood "null".data (by decide)

end EmailAnalyzer
